import Mathlib

/-!
Verification development for the usernaut group-reconciliation operator.

The Go sources are shallowly embedded: pure helpers become Lean functions,
the per-backend reconcile pipeline threads an explicit cache state and a
trace of outbound calls, and every fallible operation returns Except.
External collaborators (backend SaaS clients, the LDAP directory, the
regex engine) are modelled as explicit oracle parameters so that theorems
quantify over their behaviour.
-/

deriving instance DecidableEq for Except

namespace Usernaut

/-- structs.LDAPUser as consumed through GetEmail, GetDisplayName, GetSN. -/
structure LDAPUser where
  email : String
  displayName : String
  sn : String
deriving DecidableEq, Repr

/-- structs.User, the backend-native user record. -/
structure User where
  id : String
  userName : String
  email : String
  firstName : String
  lastName : String
  role : String
deriving DecidableEq, Repr

/-- structs.Team, the backend-native team record. -/
structure Team where
  id : String
  name : String
  description : String
  role : String
deriving DecidableEq, Repr

/-- v1alpha1.Backend: one declared backend target of a Group. -/
structure Backend where
  name : String
  btype : String
deriving DecidableEq, Repr

/-- The backend instance key used inside cache entries, backend.Name + "_" + backend.Type. -/
def Backend.cacheKey (b : Backend) : String := b.name ++ "_" ++ b.btype

/-- Lookup in a Go map of team members keyed by backend user id. -/
def lookupUser : List (String × User) → String → Option User
  | [], _ => none
  | (k1, v1) :: rest, k => if k1 == k then some v1 else lookupUser rest k

/-- fivetran.AccountReviewerRole. -/
def accountReviewerRole : String := "Account Reviewer"

/-- The well-known finalizer string of the group controller. -/
def groupFinalizer : String := "operator.dataverse.redhat.com/finalizer"

/- ### Go map[string]string as an association list -/

/-- Lookup in a Go string map (modelled as an association list). -/
def lookupStr : List (String × String) → String → Option String
  | [], _ => none
  | (k1, v1) :: rest, k => if k1 == k then some v1 else lookupStr rest k

/-- Go map assignment m[k] = v: replace an existing binding or append a new one. -/
def setStr : List (String × String) → String → String → List (String × String)
  | [], k, v => [(k, v)]
  | (k1, v1) :: rest, k, v =>
      if k1 == k then (k, v) :: rest else (k1, v1) :: setStr rest k v

/-- Go delete(m, k): drop the binding for k. -/
def delStr (m : List (String × String)) (k : String) : List (String × String) :=
  m.filter (fun p => p.1 != k)

/- ### The identity cache

Cache values in the Go code are JSON strings holding either a
map[string]string (user and team entries) or a []string (the user_list
entry).  The JSON codec is injective on these shapes, so we represent a
stored value directly by its decoded form tagged by a constructor;
unmarshalling into the wrong shape fails, as malformed JSON does. -/

inductive CacheValue
  | vmap (m : List (String × String))
  | vlist (l : List String)
deriving DecidableEq, Repr

/-- The key-value store backing the cache. -/
abbrev CacheStore : Type := List (String × CacheValue)

def cacheLookup : CacheStore → String → Option CacheValue
  | [], _ => none
  | (k1, v1) :: rest, k => if k1 == k then some v1 else cacheLookup rest k

def cacheSetStore : CacheStore → String → CacheValue → CacheStore
  | [], k, v => [(k, v)]
  | (k1, v1) :: rest, k, v =>
      if k1 == k then (k, v) :: rest else (k1, v1) :: cacheSetStore rest k v

def cacheDeleteStore (c : CacheStore) (k : String) : CacheStore :=
  c.filter (fun p => p.1 != k)

/-- inmemory.InMemoryCache.Get: a missing key yields the error
"key not found" together with an empty value. -/
def inmemoryGet (c : CacheStore) (k : String) : Except String CacheValue :=
  match cacheLookup c k with
  | some v => .ok v
  | none => .error "key not found"

/-- redis.RedisCache.Get: a missing key yields the distinguished redis.Nil
error (the message of which is "redis: nil"). -/
def redisGet (c : CacheStore) (k : String) : Except String CacheValue :=
  match cacheLookup c k with
  | some v => .ok v
  | none => .error "redis: nil"

/-- json.Unmarshal of a cached value into a map[string]string. -/
def unmarshalMap : CacheValue → Except String (List (String × String))
  | .vmap m => .ok m
  | .vlist _ => .error "cannot unmarshal into map"

/-- json.Unmarshal of a cached value into a []string. -/
def unmarshalList : CacheValue → Except String (List String)
  | .vlist l => .ok l
  | .vmap _ => .error "cannot unmarshal into list"

/- ### Name transformer (pkg/utils) -/

/-- strings.Contains. -/
def containsSubstr (s pat : String) : Bool :=
  (s.splitOn pat).length > 1

/-- configuration pattern entry: an input regex and an output template. -/
structure PatternEntry where
  input : String
  output : String
deriving DecidableEq, Repr

/-- One iteration of the substitution loop in processGroupName: substitute
capture i (value mi) into the running result, honouring the special token
for dash-to-underscore replacement. -/
def substStep (result : String) (i : Nat) (mi : String) : String :=
  let placeholder := "$" ++ toString i
  let token := placeholder ++ "|replace(-,_)"
  if containsSubstr result token then
    result.replace token (mi.replace "-" "_")
  else
    result.replace placeholder mi

/-- utils.processGroupName: substitute capture groups 1.. into the output
template, left to right. -/
def processGroupName (outputTemplate : String) (ms : List String) : String :=
  ((List.range ms.length).drop 1).foldl
    (fun result i => substStep result i (ms.getD i "")) outputTemplate

/-- A compiled-regex oracle: for a pattern string, either none (the pattern
does not compile) or a matcher returning the FindStringSubmatch result
(empty list when there is no match). -/
abbrev RegexOracle : Type := String → Option (String → List String)

/-- utils.GetTransformedGroupName, inner loop over the pattern rules. -/
def tryPatterns (compile : RegexOracle) (inputStr : String) :
    List PatternEntry → Option (Except String String)
  | [] => none
  | p :: rest =>
      match compile p.input with
      | none => some (.error ("invalid regex pattern: " ++ p.input))
      | some matcher =>
          let ms := matcher inputStr
          if ms.length > 0 then
            some (.ok (processGroupName p.output ms))
          else
            tryPatterns compile inputStr rest

/-- utils.GetTransformedGroupName: pick the rules for the backend type
(falling back to the pseudo-type default), try them in order, and fail when
none matches. -/
def GetTransformedGroupName (pattern : List (String × List PatternEntry))
    (compile : RegexOracle) (typeName inputStr : String) : Except String String :=
  let patterns :=
    match (pattern.find? (fun p => p.1 == typeName)).map (fun p => p.2) with
    | some ps => ps
    | none =>
        match (pattern.find? (fun p => p.1 == "default")).map (fun p => p.2) with
        | some ps => ps
        | none => []
  match tryPatterns compile inputStr patterns with
  | some r => r
  | none =>
      .error ("no matching pattern found for backend type " ++ typeName ++
        " and input string is " ++ inputStr)

/- ### Group graph and membership expansion (group_controller.go) -/

/-- The membership-relevant part of a Group resource: direct users and
referenced sibling groups. -/
structure GSpec where
  users : List String
  groups : List String
deriving DecidableEq, Repr

/-- A namespace of Group resources, keyed by group name. -/
abbrev Graph : Type := List (String × GSpec)

def keysOf (g : Graph) : List String := g.map (fun p => p.1)

/-- Client.Get of a Group resource by name. -/
def lookupG (g : Graph) (n : String) : Option GSpec :=
  (g.find? (fun p => p.1 == n)).map (fun p => p.2)

/-- Count of graph nodes not yet on the current traversal path; the
termination measure of the depth-first expansion. -/
def unvisCount (g : Graph) (visited : List String) : Nat :=
  (keysOf g).countP (fun k => !visited.contains k)

theorem countP_lt_of_mem {α : Type} (p q : α → Bool) (l : List α) (a : α)
    (ha : a ∈ l) (hpq : ∀ x, q x = true → p x = true)
    (hpa : p a = true) (hqa : q a = false) :
    l.countP q < l.countP p := by
  induction l with
  | nil => cases ha
  | cons b l ih =>
      by_cases hab : b = a
      · subst hab
        have hle : l.countP q ≤ l.countP p :=
          List.countP_mono_left (fun x _ hx => hpq x hx)
        simp [List.countP_cons, hpa, hqa]
        omega
      · have hb : a ∈ l := by
          rcases List.mem_cons.mp ha with h | h
          · exact absurd h.symm hab
          · exact h
        have hlt := ih hb
        simp only [List.countP_cons]
        by_cases hqb : q b = true
        · simp [hqb, hpq b hqb]; omega
        · simp only [Bool.not_eq_true] at hqb
          by_cases hpb : p b = true <;> simp [hqb, hpb] <;> omega

theorem unvisCount_lt (g : Graph) (visited : List String) (name : String)
    (hk : name ∈ keysOf g) (hv : visited.contains name = false) :
    unvisCount g (name :: visited) < unvisCount g visited := by
  unfold unvisCount
  apply countP_lt_of_mem _ _ _ name hk
  · intro x hx
    simp only [List.contains_cons, Bool.not_eq_true', Bool.or_eq_false_iff] at hx ⊢
    exact hx.2
  · show (!visited.contains name) = true
    rw [hv]
    rfl
  · show (!(name :: visited).contains name) = false
    simp

/-- GroupReconciler.fetchUniqueGroupMembers, generalised to a worklist of
sibling group names sharing the same traversal path.  A name already on the
path contributes the empty list; a name absent from the namespace is an
error; otherwise the result is the node's own users followed by the
depth-first expansion of its referenced groups, followed by the remaining
siblings.  The path-local visited set is passed down, mirroring the
mark-on-enter / unmark-on-exit discipline of the Go code. -/
def fetchMembersList (g : Graph) : List String → List String → Except String (List String)
  | [], _ => .ok []
  | name :: rest, visited =>
      if visited.contains name then
        fetchMembersList g rest visited
      else
        match hl : lookupG g name with
        | none => .error ("group not found: " ++ name)
        | some spec =>
            match fetchMembersList g spec.groups (name :: visited) with
            | .error e => .error e
            | .ok sub =>
                match fetchMembersList g rest visited with
                | .error e => .error e
                | .ok restR => .ok (spec.users ++ sub ++ restR)
termination_by names visited => (unvisCount g visited, names.length)
decreasing_by
  · exact Prod.Lex.right _ (by simp)
  · apply Prod.Lex.left
    apply unvisCount_lt g visited name
    · have hs : (g.find? (fun p => p.1 == name)).isSome := by
        cases hf : g.find? (fun p => p.1 == name) with
        | none => simp [lookupG, hf] at hl
        | some p => simp
      rcases Option.isSome_iff_exists.mp hs with ⟨p, hp⟩
      have hmem := List.mem_of_find?_eq_some hp
      have hkey := List.find?_some hp
      simp only [beq_iff_eq] at hkey
      subst hkey
      exact List.mem_map_of_mem (fun q => q.1) hmem
    · exact Bool.of_not_eq_true (by assumption)
  · exact Prod.Lex.right _ (by simp)

/-- GroupReconciler.fetchUniqueGroupMembers as called from Reconcile, with
an initially empty traversal path. -/
def fetchUniqueGroupMembers (g : Graph) (name : String) (visited : List String) :
    Except String (List String) :=
  fetchMembersList g [name] visited

/-- GroupReconciler.deduplicateMembers: keep the first occurrence of every
member, preserving order. -/
def dedupGo (seen : List String) : List String → List String
  | [] => []
  | m :: ms =>
      if seen.contains m then dedupGo seen ms
      else m :: dedupGo (m :: seen) ms

def deduplicateMembers (ms : List String) : List String :=
  dedupGo [] ms

/-- Specification-side deduplication: the first-seen element followed by the
deduplication of the remainder with every later occurrence of it removed.
This is manifestly "each element exactly once, in first-seen order". -/
def keepFirst : List String → List String
  | [] => []
  | x :: xs => x :: keepFirst (xs.filter (fun y => y != x))
termination_by l => l.length
decreasing_by
  simp only [List.length_cons]
  exact Nat.lt_succ_of_le (List.length_filter_le _ _)

/-- Simple-path reachability from a start node, avoiding a set of nodes:
there is a path of edges of the group graph from the start to the target
whose nodes are pairwise distinct and all outside the avoided set.
Distinctness is enforced by adding each traversed node to the avoided set. -/
inductive PathReach (g : Graph) : List String → String → String → Prop
  | here {visited n} : ¬ visited.contains n → PathReach g visited n n
  | step {visited n m t spec} : ¬ visited.contains n → lookupG g n = some spec →
      m ∈ spec.groups → PathReach g (n :: visited) m t → PathReach g visited n t

/-- A group graph is closed when every referenced subgroup exists; Bool
valued so concrete instances can be checked by evaluation. -/
def closedB (g : Graph) : Bool :=
  g.all (fun p => p.2.groups.all (fun m => (keysOf g).contains m))

theorem lookupG_mem_keys {g : Graph} {n : String} (h : n ∈ keysOf g) :
    ∃ spec, lookupG g n = some spec := by
  induction g with
  | nil => cases h
  | cons p g ih =>
      by_cases hp : p.1 = n
      · exact ⟨p.2, by simp [lookupG, List.find?_cons, hp]⟩
      · have hmem : n ∈ keysOf g := by
          rcases List.mem_cons.mp h with h1 | h1
          · exact absurd h1.symm hp
          · exact h1
        rcases ih hmem with ⟨spec, hs⟩
        refine ⟨spec, ?_⟩
        unfold lookupG at hs ⊢
        rw [List.find?_cons_of_neg]
        · exact hs
        · simp [hp]

theorem lookupG_mem {g : Graph} {n : String} {spec : GSpec}
    (hl : lookupG g n = some spec) : (n, spec) ∈ g := by
  unfold lookupG at hl
  cases hf : g.find? (fun p => p.1 == n) with
  | none => rw [hf] at hl; cases hl
  | some p =>
      rw [hf] at hl
      simp only [Option.map] at hl
      injection hl with hl
      have hmem := List.mem_of_find?_eq_some hf
      have hkey := List.find?_some hf
      simp only [beq_iff_eq] at hkey
      have : p = (n, spec) := by
        cases p
        simp_all
      rw [this] at hmem
      exact hmem

theorem closedB_subgroups {g : Graph} (hc : closedB g = true) {n : String}
    {spec : GSpec} (hl : lookupG g n = some spec) :
    ∀ m ∈ spec.groups, m ∈ keysOf g := by
  intro m hm
  have hmem := lookupG_mem hl
  unfold closedB at hc
  have h1 := List.all_eq_true.mp hc _ hmem
  have h2 := List.all_eq_true.mp h1 _ hm
  exact List.elem_iff.mp h2

/-- Unfolding equation for a worklist head that is already on the path. -/
theorem fetchMembersList_cons_visited (g : Graph) (name : String)
    (rest visited : List String) (hv : visited.contains name = true) :
    fetchMembersList g (name :: rest) visited = fetchMembersList g rest visited := by
  rw [fetchMembersList.eq_def]
  simp only [hv, if_true]

/-- Unfolding equation for a missing group. -/
theorem fetchMembersList_cons_missing (g : Graph) (name : String)
    (rest visited : List String) (hv : ¬ visited.contains name = true)
    (hl : lookupG g name = none) :
    fetchMembersList g (name :: rest) visited =
      .error ("group not found: " ++ name) := by
  rw [fetchMembersList.eq_def]
  dsimp only
  rw [if_neg hv]
  split
  · rfl
  next spec2 h2 => rw [h2] at hl; cases hl

/-- Unfolding equation for a fresh, existing group at the worklist head. -/
theorem fetchMembersList_cons_found (g : Graph) (name : String)
    (rest visited : List String) (hv : ¬ visited.contains name = true)
    (spec : GSpec) (hl : lookupG g name = some spec) :
    fetchMembersList g (name :: rest) visited =
      (match fetchMembersList g spec.groups (name :: visited) with
      | .error e => .error e
      | .ok sub =>
          match fetchMembersList g rest visited with
          | .error e => .error e
          | .ok restR => .ok (spec.users ++ sub ++ restR)) := by
  rw [fetchMembersList.eq_def]
  dsimp only
  rw [if_neg hv]
  split
  next h2 => rw [h2] at hl; cases hl
  next spec2 h2 =>
      rw [h2] at hl
      injection hl with hl
      subst hl
      rfl

/-- Termination and success of the membership expansion: on a closed graph,
expansion from any worklist of existing nodes never fails (and, being a
total Lean function, always terminates). -/
theorem fetchMembersList_ok (g : Graph) (hc : closedB g = true) :
    ∀ names visited : List String, (∀ n ∈ names, n ∈ keysOf g) →
    ∃ l, fetchMembersList g names visited = .ok l := by
  intro names visited
  induction names, visited using fetchMembersList.induct g with
  | case1 _ =>
      intro _
      exact ⟨[], by rw [fetchMembersList]⟩
  | case2 name rest visited hv ih =>
      intro h
      rcases ih (fun n hn => h n (List.mem_cons_of_mem _ hn)) with ⟨l, hl⟩
      exact ⟨l, by rw [fetchMembersList_cons_visited g name rest visited hv]; exact hl⟩
  | case3 name rest visited hv hl =>
      intro h
      rcases lookupG_mem_keys (h name (List.mem_cons_self _ _)) with ⟨spec, hs⟩
      rw [hs] at hl
      cases hl
  | case4 name rest visited hv spec hl e hsubeq ihsub =>
      intro h
      rcases ihsub (fun n hn => closedB_subgroups hc hl n hn) with ⟨sub, hsub⟩
      rw [hsub] at hsubeq
      cases hsubeq
  | case5 name rest visited hv spec hl sub hsubeq e hresteq ihsub ihrest =>
      intro h
      rcases ihrest (fun n hn => h n (List.mem_cons_of_mem _ hn)) with ⟨restR, hrest⟩
      rw [hrest] at hresteq
      cases hresteq
  | case6 name rest visited hv spec hl sub hsubeq restR hresteq ihsub ihrest =>
      intro h
      refine ⟨spec.users ++ sub ++ restR, ?_⟩
      rw [fetchMembersList_cons_found g name rest visited hv spec hl, hsubeq, hresteq]

/-- Soundness and completeness of the expansion: a user occurs in the raw
expansion result exactly when some node carrying it is reachable from the
worklist along a simple path avoiding the current traversal path. -/
theorem mem_fetchMembersList (g : Graph) :
    ∀ names visited : List String, ∀ l : List String,
    fetchMembersList g names visited = .ok l →
    ∀ u : String, u ∈ l ↔ ∃ n ∈ names, ∃ t : String, ∃ spec : GSpec,
      PathReach g visited n t ∧ lookupG g t = some spec ∧ u ∈ spec.users := by
  intro names visited
  induction names, visited using fetchMembersList.induct g with
  | case1 v =>
      intro l hfl u
      rw [fetchMembersList] at hfl
      injection hfl with hfl
      subst hfl
      simp
  | case2 name rest visited hv ih =>
      intro l hfl u
      rw [fetchMembersList_cons_visited g name rest visited hv] at hfl
      constructor
      · intro hu
        rcases (ih l hfl u).mp hu with ⟨n, hn, t, spec, hp, hlk, hus⟩
        exact ⟨n, List.mem_cons_of_mem _ hn, t, spec, hp, hlk, hus⟩
      · rintro ⟨n, hn, t, spec, hp, hlk, hus⟩
        rcases List.mem_cons.mp hn with rfl | hn2
        · cases hp with
          | here hnv => exact absurd hv hnv
          | step hnv _ _ _ => exact absurd hv hnv
        · exact (ih l hfl u).mpr ⟨n, hn2, t, spec, hp, hlk, hus⟩
  | case3 name rest visited hv hl =>
      intro l hfl u
      rw [fetchMembersList_cons_missing g name rest visited hv hl] at hfl
      cases hfl
  | case4 name rest visited hv spec hl e hsubeq ihsub =>
      intro l hfl u
      rw [fetchMembersList_cons_found g name rest visited hv spec hl, hsubeq] at hfl
      cases hfl
  | case5 name rest visited hv spec hl sub hsubeq e hresteq ihsub ihrest =>
      intro l hfl u
      rw [fetchMembersList_cons_found g name rest visited hv spec hl, hsubeq,
        hresteq] at hfl
      cases hfl
  | case6 name rest visited hv spec hl sub hsubeq restR hresteq ihsub ihrest =>
      intro l hfl u
      rw [fetchMembersList_cons_found g name rest visited hv spec hl, hsubeq,
        hresteq] at hfl
      injection hfl with hfl
      subst hfl
      constructor
      · intro hu
        rcases List.mem_append.mp hu with hu1 | hurest
        · rcases List.mem_append.mp hu1 with huu | husub
          · exact ⟨name, List.mem_cons_self _ _, name, spec,
              PathReach.here hv, hl, huu⟩
          · rcases (ihsub sub hsubeq u).mp husub with ⟨m, hm, t, spec2, hp, hlk, hus⟩
            exact ⟨name, List.mem_cons_self _ _, t, spec2,
              PathReach.step hv hl hm hp, hlk, hus⟩
        · rcases (ihrest restR hresteq u).mp hurest with ⟨n, hn, t, spec2, hp, hlk, hus⟩
          exact ⟨n, List.mem_cons_of_mem _ hn, t, spec2, hp, hlk, hus⟩
      · rintro ⟨n, hn, t, spec2, hp, hlk, hus⟩
        rcases List.mem_cons.mp hn with rfl | hn2
        · cases hp with
          | here hnv =>
              rw [hl] at hlk
              injection hlk with hlk
              subst hlk
              exact List.mem_append.mpr (Or.inl (List.mem_append.mpr (Or.inl hus)))
          | step hnv hl2 hm hp2 =>
              rw [hl] at hl2
              injection hl2 with hl2
              subst hl2
              have : u ∈ sub :=
                (ihsub sub hsubeq u).mpr ⟨_, hm, t, spec2, hp2, hlk, hus⟩
              exact List.mem_append.mpr (Or.inl (List.mem_append.mpr (Or.inr this)))
        · have : u ∈ restR :=
            (ihrest restR hresteq u).mpr ⟨n, hn2, t, spec2, hp, hlk, hus⟩
          exact List.mem_append.mpr (Or.inr this)

theorem dedupGo_eq_keepFirst :
    ∀ (ms seen : List String),
    dedupGo seen ms = keepFirst (ms.filter (fun y => !seen.contains y)) := by
  intro ms
  induction ms with
  | nil =>
      intro seen
      rw [dedupGo, List.filter_nil, keepFirst.eq_def]
  | cons m ms ih =>
      intro seen
      by_cases hm : seen.contains m = true
      · rw [dedupGo]
        simp only [hm, if_true, List.filter_cons, Bool.not_true]
        exact ih seen
      · have hm2 : seen.contains m = false := Bool.of_not_eq_true hm
        rw [dedupGo]
        simp only [hm2, Bool.false_eq_true, if_false, List.filter_cons,
          Bool.not_false]
        rw [keepFirst.eq_def]
        congr 1
        rw [ih (m :: seen)]
        congr 1
        rw [List.filter_filter]
        apply List.filter_congr
        intro y _
        simp only [List.contains_cons, Bool.not_or]
        cases hy : y == m <;> cases hz : seen.contains y <;> simp [bne, hy, hz]

theorem deduplicateMembers_eq_keepFirst (ms : List String) :
    deduplicateMembers ms = keepFirst ms := by
  unfold deduplicateMembers
  rw [dedupGo_eq_keepFirst]
  congr 1
  simp

theorem mem_keepFirst : ∀ l : List String, ∀ u : String,
    u ∈ keepFirst l ↔ u ∈ l := by
  intro l
  induction l using keepFirst.induct with
  | case1 => intro u; rw [keepFirst.eq_def]
  | case2 x xs ih =>
      intro u
      rw [keepFirst.eq_def]
      constructor
      · intro hu
        rcases List.mem_cons.mp hu with rfl | hu2
        · exact List.mem_cons_self _ _
        · have := (ih u).mp hu2
          exact List.mem_cons_of_mem _ (List.mem_of_mem_filter this)
      · intro hu
        rcases List.mem_cons.mp hu with rfl | hu2
        · exact List.mem_cons_self _ _
        · by_cases hux : u = x
          · subst hux; exact List.mem_cons_self _ _
          · apply List.mem_cons_of_mem
            apply (ih u).mpr
            apply List.mem_filter.mpr
            exact ⟨hu2, by simp [bne, hux]⟩

theorem nodup_keepFirst : ∀ l : List String, (keepFirst l).Nodup := by
  intro l
  induction l using keepFirst.induct with
  | case1 => rw [keepFirst.eq_def]; exact List.nodup_nil
  | case2 x xs ih =>
      rw [keepFirst.eq_def]
      refine List.nodup_cons.mpr ⟨?_, ih⟩
      intro hx
      have := (mem_keepFirst _ x).mp hx
      have := List.mem_filter.mp this
      simp [bne] at this

/- ### Per-backend reconcile pipeline (group_controller.go)

The backend SaaS client and the name transformer are oracles supplied by
the environment; the pipeline threads the cache store and records every
mutating outbound call in a trace. -/

/-- A mutating outbound call issued during reconciliation. -/
inductive Call
  | createTeam (b : Backend) (t : Team)
  | createUser (b : Backend) (u : User)
  | addUsers (b : Backend) (teamID : String) (userIDs : List String)
  | removeUsers (b : Backend) (teamID : String) (userIDs : List String)
  | deleteTeam (b : Backend) (teamID : String)
  | deleteUser (backendKey : String) (userID : String)
  | cacheSet (k : String) (v : CacheValue)
  | cacheDelete (k : String)
deriving DecidableEq, Repr

/-- The operations of one constructed backend client (clients.Client),
as deterministic oracles. -/
structure ClientOps where
  createUser : User → Except String User
  createTeam : Team → Except String Team
  deleteTeamByID : String → Except String Unit
  fetchTeamMembersByTeamID : String → Except String (List (String × User))
  addUserToTeam : String → List String → Except String Unit
  removeUserFromTeam : String → List String → Except String Unit
  deleteUser : String → Except String Unit

/-- The reconciler environment: the name transformer applied to the static
configuration, the backend-client registry, the LDAP enrichment data held
in allLdapUserData, and the Get operation of the configured cache variant. -/
structure ReconcilerEnv where
  transform : String → String → Except String String
  newClient : Backend → Except String ClientOps
  ldapData : String → Option LDAPUser
  cacheGet : CacheStore → String → Except String CacheValue

/-- GroupReconciler.fetchOrCreateTeam, second half: the team was not found
in the cache, so create it in the backend and merge the new id into the
cache entry under the transformed name. -/
def createTeamPath (ops : ClientOps) (cache : CacheStore) (groupName : String)
    (b : Backend) (tname : String) (m : List (String × String)) :
    Except String String × CacheStore × List Call :=
  let teamArg : Team :=
    { id := "", name := tname, description := "team for " ++ groupName,
      role := accountReviewerRole }
  match ops.createTeam teamArg with
  | .error e => (.error e, cache, [Call.createTeam b teamArg])
  | .ok newTeam =>
      let m2 := setStr m b.cacheKey newTeam.id
      (.ok newTeam.id, cacheSetStore cache tname (.vmap m2),
        [Call.createTeam b teamArg, Call.cacheSet tname (.vmap m2)])

/-- GroupReconciler.fetchOrCreateTeam: transform the group name, consult the
cache under the transformed name, and return the recorded team id for this
backend instance if any; otherwise create the team and record its id. -/
def fetchOrCreateTeam (env : ReconcilerEnv) (ops : ClientOps)
    (cache : CacheStore) (groupName : String) (b : Backend) :
    Except String String × CacheStore × List Call :=
  match env.transform b.btype groupName with
  | .error e => (.error e, cache, [])
  | .ok tname =>
      match env.cacheGet cache tname with
      | .ok v =>
          match unmarshalMap v with
          | .error e => (.error e, cache, [])
          | .ok m =>
              match lookupStr m b.cacheKey with
              | some teamID =>
                  if teamID == "" then createTeamPath ops cache groupName b tname m
                  else (.ok teamID, cache, [])
              | none => createTeamPath ops cache groupName b tname m
      | .error _ => createTeamPath ops cache groupName b tname []

/-- GroupReconciler.createUsersInBackendAndCache, per-user creation path:
create the user in the backend and merge the returned id into the cache
entry under the canonical email. -/
def createUserPath (_env : ReconcilerEnv) (ops : ClientOps) (cache : CacheStore)
    (b : Backend) (user : String) (ud : LDAPUser) (m : List (String × String)) :
    Except String Unit × CacheStore × List Call :=
  let userArg : User :=
    { id := "", userName := user, email := ud.email,
      firstName := ud.displayName, lastName := ud.sn,
      role := accountReviewerRole }
  match ops.createUser userArg with
  | .error e => (.error e, cache, [Call.createUser b userArg])
  | .ok newUser =>
      let m2 := setStr m b.cacheKey newUser.id
      (.ok (), cacheSetStore cache ud.email (.vmap m2),
        [Call.createUser b userArg, Call.cacheSet ud.email (.vmap m2)])

/-- GroupReconciler.createUsersInBackendAndCache: for every expanded user
with LDAP data, ensure the backend knows the user and the cache records the
backend-assigned id; users without LDAP data are skipped; a creation or
unmarshal failure aborts the backend. -/
def createUsersInBackendAndCache (env : ReconcilerEnv) (ops : ClientOps) :
    List String → Backend → CacheStore → Except String Unit × CacheStore × List Call
  | [], _, cache => (.ok (), cache, [])
  | user :: rest, b, cache =>
      match env.ldapData user with
      | none => createUsersInBackendAndCache env ops rest b cache
      | some ud =>
          let afterCreate :
              Except String Unit × CacheStore × List Call :=
            match env.cacheGet cache ud.email with
            | .ok v =>
                match unmarshalMap v with
                | .error e => (.error e, cache, [])
                | .ok m =>
                    match lookupStr m b.cacheKey with
                    | some userID =>
                        if userID == "" then createUserPath env ops cache b user ud m
                        else (.ok (), cache, [])
                    | none => createUserPath env ops cache b user ud m
            | .error _ => createUserPath env ops cache b user ud []
          match afterCreate with
          | (.error e, cache2, tr) => (.error e, cache2, tr)
          | (.ok _, cache2, tr) =>
              match createUsersInBackendAndCache env ops rest b cache2 with
              | (.error e, cache3, tr2) => (.error e, cache3, tr ++ tr2)
              | (.ok _, cache3, tr2) => (.ok (), cache3, tr ++ tr2)

/-- The first loop of GroupReconciler.processUsers: walk the expanded users
collecting the backend-specific ids to sync, and schedule for removal any
user without LDAP data whose raw id is already a current team member.
Aborts when an enrichable user has no cache entry, a malformed entry, or no
recorded id for this backend instance. -/
def collectSyncAndMissing (env : ReconcilerEnv) (cache : CacheStore)
    (members : List (String × User)) (b : Backend) :
    List String → Except String (List String × List String)
  | [] => .ok ([], [])
  | user :: rest =>
      match env.ldapData user with
      | none =>
          match collectSyncAndMissing env cache members b rest with
          | .error e => .error e
          | .ok (sync, rem) =>
              if (lookupUser members user).isSome then
                .ok (sync, user :: rem)
              else
                .ok (sync, rem)
      | some ud =>
          match env.cacheGet cache ud.email with
          | .error e => .error e
          | .ok v =>
              match unmarshalMap v with
              | .error e => .error e
              | .ok m =>
                  match lookupStr m b.cacheKey with
                  | some userID =>
                      if userID == "" then .error "user ID not found in cache"
                      else
                        match collectSyncAndMissing env cache members b rest with
                        | .error e => .error e
                        | .ok (sync, rem) => .ok (userID :: sync, rem)
                  | none => .error "user ID not found in cache"

/-- GroupReconciler.processUsers: compute the add and remove sets for one
backend from the expanded users and the current team membership. -/
def processUsers (env : ReconcilerEnv) (cache : CacheStore)
    (groupUsers : List String) (members : List (String × User)) (b : Backend) :
    Except String (List String × List String) :=
  match collectSyncAndMissing env cache members b groupUsers with
  | .error e => .error e
  | .ok (sync, removeMissing) =>
      let removeExtra :=
        (members.map (fun p => p.1)).filter (fun userID => !sync.contains userID)
      let toAdd :=
        sync.filter (fun userID => (lookupUser members userID).isNone)
      .ok (toAdd, removeMissing ++ removeExtra)

/-- The backend-specific id the cache records for an expanded user: the
LDAP email resolved through the cache entry to this backend instance, with
the empty id treated as absent (specification-side helper used to state
properties of processUsers). -/
def cachedId (env : ReconcilerEnv) (cache : CacheStore) (b : Backend)
    (u : String) : Option String :=
  match env.ldapData u with
  | none => none
  | some ud =>
      match env.cacheGet cache ud.email with
      | .error _ => none
      | .ok v =>
          match unmarshalMap v with
          | .error _ => none
          | .ok m =>
              match lookupStr m b.cacheKey with
              | none => none
              | some id => if id == "" then none else some id

/-- Outcome of processing one declared backend inside the reconcile loop. -/
inductive BackendOutcome
  | recorded (msg : String)
  | abortOnAddRemove (msg : String)
  | success
deriving DecidableEq, Repr

/-- The body of the per-backend loop of GroupReconciler.Reconcile: client
construction, team fetch-or-create, user onboarding, membership fetch,
diffing, then the batch add and remove calls.  The first five steps record
their failure and let the loop continue; a failing AddUserToTeam or
RemoveUserFromTeam returns from Reconcile immediately. -/
def processBackend (env : ReconcilerEnv) (groupName : String)
    (uniqueMembers : List String) (b : Backend) (cache : CacheStore) :
    BackendOutcome × CacheStore × List Call :=
  match env.newClient b with
  | .error e => (.recorded e, cache, [])
  | .ok ops =>
      match fetchOrCreateTeam env ops cache groupName b with
      | (.error e, cache2, tr1) => (.recorded e, cache2, tr1)
      | (.ok teamID, cache2, tr1) =>
          match createUsersInBackendAndCache env ops uniqueMembers b cache2 with
          | (.error e, cache3, tr2) => (.recorded e, cache3, tr1 ++ tr2)
          | (.ok _, cache3, tr2) =>
              match ops.fetchTeamMembersByTeamID teamID with
              | .error e => (.recorded e, cache3, tr1 ++ tr2)
              | .ok members =>
                  match processUsers env cache3 uniqueMembers members b with
                  | .error e => (.recorded e, cache3, tr1 ++ tr2)
                  | .ok (toAdd, toRemove) =>
                      match (if toAdd.isEmpty then .ok () else
                          ops.addUserToTeam teamID toAdd : Except String Unit) with
                      | .error e =>
                          (.abortOnAddRemove e, cache3,
                            tr1 ++ tr2 ++ [Call.addUsers b teamID toAdd])
                      | .ok _ =>
                          let trAdd :=
                            if toAdd.isEmpty then []
                            else [Call.addUsers b teamID toAdd]
                          match (if toRemove.isEmpty then .ok () else
                              ops.removeUserFromTeam teamID toRemove :
                              Except String Unit) with
                          | .error e =>
                              (.abortOnAddRemove e, cache3,
                                tr1 ++ tr2 ++ trAdd ++
                                  [Call.removeUsers b teamID toRemove])
                          | .ok _ =>
                              let trRemove :=
                                if toRemove.isEmpty then []
                                else [Call.removeUsers b teamID toRemove]
                              (.success, cache3, tr1 ++ tr2 ++ trAdd ++ trRemove)

/-- Result of the per-backend loop of Reconcile: either an early return
caused by a failing add or remove call, or completion with the
backend-errors map (keyed by backend type) and the isError flag. -/
inductive LoopResult
  | aborted (msg : String) (cache : CacheStore) (trace : List Call)
  | completed (backendErrors : List (String × String)) (isError : Bool)
      (cache : CacheStore) (trace : List Call)
deriving DecidableEq, Repr

/-- The per-backend loop of GroupReconciler.Reconcile over the declared
backends. -/
def reconcileBackends (env : ReconcilerEnv) (groupName : String)
    (uniqueMembers : List String) :
    List Backend → CacheStore → List (String × String) → Bool → List Call →
    LoopResult
  | [], cache, berrs, isErr, tr => .completed berrs isErr cache tr
  | b :: rest, cache, berrs, isErr, tr =>
      match processBackend env groupName uniqueMembers b cache with
      | (.recorded e, cache2, tr2) =>
          reconcileBackends env groupName uniqueMembers rest cache2
            (setStr berrs b.btype e) true (tr ++ tr2)
      | (.abortOnAddRemove e, cache2, tr2) => .aborted e cache2 (tr ++ tr2)
      | (.success, cache2, tr2) =>
          reconcileBackends env groupName uniqueMembers rest cache2 berrs isErr
            (tr ++ tr2)

/- ### Status finalization (group_controller.go and the Group type) -/

/-- v1alpha1.BackendStatus. -/
structure BackendStatus where
  name : String
  btype : String
  status : Bool
  message : String
deriving DecidableEq, Repr

/-- metav1.Condition restricted to the fields the controller writes. -/
inductive CondStatus
  | ctrue
  | cfalse
  | cunknown
deriving DecidableEq, Repr

structure Condition where
  ctype : String
  status : CondStatus
  reason : String
  message : String
deriving DecidableEq, Repr

/-- Lookup of a condition by type (specification-side helper). -/
def condLookup : List Condition → String → Option Condition
  | [], _ => none
  | c :: rest, t => if c.ctype == t then some c else condLookup rest t

/-- v1alpha1.GroupStatus. -/
structure GroupStatus where
  conditions : List Condition
  lastAppliedGeneration : Int
  backendsStatus : List BackendStatus
deriving DecidableEq, Repr

/-- The Group object fields the reconciler reads and writes. -/
structure GroupObj where
  generation : Int
  deletionTimestamp : Bool
  finalizers : List String
  groupName : String
  backends : List Backend
  status : GroupStatus
deriving DecidableEq, Repr

def groupReadyCondition : String := "GroupReadyCondition"

/-- Replace the condition of the same type, or append (shared by SetWaiting
and UpdateStatus). -/
def upsertCondition : List Condition → Condition → List Condition
  | [], c => [c]
  | c1 :: rest, c =>
      if c1.ctype == c.ctype then c :: rest else c1 :: upsertCondition rest c

/-- Group.UpdateStatus: set the GroupReadyCondition from the isError flag
and advance lastAppliedGeneration on success only. -/
def failedCondition : Condition :=
  { ctype := groupReadyCondition, status := .cfalse,
    reason := "ReconcileFailed", message := "Group reconcile failed" }

def successCondition : Condition :=
  { ctype := groupReadyCondition, status := .ctrue,
    reason := "SuccessfullyReconciled",
    message := "Group reconciled successfully" }

def UpdateStatus (g : GroupObj) (isError : Bool) : GroupObj :=
  if isError then
    let st := g.status
    let st2 := { st with conditions := upsertCondition st.conditions failedCondition }
    { g with status := st2 }
  else
    let st := g.status
    let st2 := { st with
      conditions := upsertCondition st.conditions successCondition,
      lastAppliedGeneration := g.generation }
    { g with status := st2 }

/-- The status-building loop at the end of Reconcile: one substatus per
declared backend, looked up in the backend-errors map by backend type. -/
def buildBackendStatus (backends : List Backend)
    (berrs : List (String × String)) : List BackendStatus :=
  backends.map (fun b =>
    match lookupStr berrs b.btype with
    | some msg =>
        { name := b.name, btype := b.btype, status := false, message := msg }
    | none =>
        { name := b.name, btype := b.btype, status := true,
          message := "Successful" })

/-- Outcome of the synchronization phase of Reconcile (after expansion and
enrichment): either an early error return that never reaches status
finalization, or a finished pass with the final object and the returned
reconcile error, if any. -/
inductive ReconcileOutcome
  | earlyReturn (msg : String) (g : GroupObj) (cache : CacheStore)
      (trace : List Call)
  | finished (g : GroupObj) (cache : CacheStore) (trace : List Call)
      (retErr : Option String)
deriving DecidableEq, Repr

/-- The tail of GroupReconciler.Reconcile for a group that is not being
deleted: run the per-backend loop, then build the per-backend substatus,
update the GroupReady condition, and return an error exactly when the
backend-errors map is non-empty. -/
def reconcileSyncPhase (env : ReconcilerEnv) (g : GroupObj)
    (uniqueMembers : List String) (cache : CacheStore) : ReconcileOutcome :=
  match reconcileBackends env g.groupName uniqueMembers g.backends cache
      [] false [] with
  | .aborted e cache2 tr => .earlyReturn e g cache2 tr
  | .completed berrs isErr cache2 tr =>
      let st := g.status
      let st2 := { st with backendsStatus := buildBackendStatus g.backends berrs }
      let g2 := { g with status := st2 }
      let g3 := UpdateStatus g2 isErr
      .finished g3 cache2 tr
        (if berrs.isEmpty then none else some "failed to reconcile all backends")

/- ### Finalizer-driven deletion (deleteBackendsTeam and Reconcile) -/

/-- GroupReconciler.deleteBackendsTeam: for each declared backend, when the
cache entry under the transformed group name records a team id for this
backend instance, delete the backing team, drop the id from the entry,
delete the cache key, and rewrite the remaining entry when non-empty.  Any
failure aborts the cleanup with an error. -/
def deleteBackendsTeam (env : ReconcilerEnv) (groupName : String) :
    List Backend → CacheStore → CacheStore × List Call × Except String Unit
  | [], cache => (cache, [], .ok ())
  | b :: rest, cache =>
      match env.transform b.btype groupName with
      | .error e => (cache, [], .error e)
      | .ok tname =>
          match env.newClient b with
          | .error e => (cache, [], .error e)
          | .ok ops =>
              match env.cacheGet cache tname with
              | .error _ =>
                  deleteBackendsTeam env groupName rest cache
              | .ok v =>
                  match unmarshalMap v with
                  | .error e => (cache, [], .error e)
                  | .ok m =>
                      match lookupStr m b.cacheKey with
                      | none => deleteBackendsTeam env groupName rest cache
                      | some teamID =>
                          if teamID == "" then
                            deleteBackendsTeam env groupName rest cache
                          else
                            match ops.deleteTeamByID teamID with
                            | .error e =>
                                (cache, [Call.deleteTeam b teamID], .error e)
                            | .ok _ =>
                                let m2 := delStr m b.cacheKey
                                let cache2 := cacheDeleteStore cache tname
                                let deleTr :=
                                  [Call.deleteTeam b teamID, Call.cacheDelete tname]
                                if m2.isEmpty then
                                  match deleteBackendsTeam env groupName rest cache2 with
                                  | (cache3, tr, res) => (cache3, deleTr ++ tr, res)
                                else
                                  let cache3 := cacheSetStore cache2 tname (.vmap m2)
                                  match deleteBackendsTeam env groupName rest cache3 with
                                  | (cache4, tr, res) =>
                                      (cache4, deleTr ++
                                        [Call.cacheSet tname (.vmap m2)] ++ tr, res)

/-- The deletion path of GroupReconciler.Reconcile: when the finalizer is
present, run the backend-team cleanup and strip the finalizer only when the
cleanup succeeded; any cleanup failure returns the error with the finalizer
still in place. -/
def reconcileDeletion (env : ReconcilerEnv) (g : GroupObj) (cache : CacheStore) :
    GroupObj × CacheStore × List Call × Except String Unit :=
  if g.finalizers.contains groupFinalizer then
    match deleteBackendsTeam env g.groupName g.backends cache with
    | (cache2, tr, .error e) => (g, cache2, tr, .error e)
    | (cache2, tr, .ok _) =>
        ({ g with finalizers := g.finalizers.filter (fun f => f != groupFinalizer) },
          cache2, tr, .ok ())
  else
    (g, cache, [], .ok ())

/- ### Periodic offboarding job (job_usernaut_offboarding.go) -/

/-- Errors of the directory lookup: the typed not-found error of the LDAP
client, a go-ldap protocol error carrying a result code, or any other
(transport) failure. -/
inductive LdapLookupErr
  | noUserFound
  | ldapCode (code : Nat)
  | transport (msg : String)
deriving DecidableEq, Repr

/-- goldap.LDAPResultNoSuchObject. -/
def ldapResultNoSuchObject : Nat := 32

/-- The offboarding job environment: the directory lookup oracle and the
configured backend clients keyed by backend instance key. -/
structure OffboardEnv where
  ldap : String → Except LdapLookupErr (List (String × String))
  backendClients : List (String × ClientOps)

/-- UserOffboardingJob.isUserActiveInLDAP: a user is inactive exactly on
the typed not-found error or the no-such-object result code; any other
lookup failure is propagated. -/
def isUserActiveInLDAP (env : OffboardEnv) (userID : String) :
    Except LdapLookupErr Bool :=
  match env.ldap userID with
  | .ok _ => .ok true
  | .error .noUserFound => .ok false
  | .error (.ldapCode c) =>
      if c == ldapResultNoSuchObject then .ok false
      else .error (.ldapCode c)
  | .error e => .error e

/-- UserOffboardingJob.getUserDataFromCache: scan the cache for keys that
contain the username, returning the backend mapping and email of the first
entry that unmarshals into a map. -/
def getUserDataFromCache (cache : CacheStore) (userKey : String) :
    Except String (List (String × String) × String) :=
  match (cache.filter (fun p => containsSubstr p.1 userKey)).find?
      (fun p => match p.2 with | .vmap _ => true | _ => false) with
  | some (email, .vmap m) => .ok (m, email)
  | _ => .error ("No user found with username: " ++ userKey)

/-- The skipped (access-preserving) backend types of the offboarding job. -/
def skippedBackendTypes : List String := ["gitlab", "rover"]

/-- UserOffboardingJob.offboardUserFromAllBackends: for every configured
backend client whose type is not preserved and whose id is recorded in the
user mapping, call DeleteUser, accumulating per-backend errors. -/
def offboardUserFromAllBackends (userData : List (String × String)) :
    List (String × ClientOps) → List Call × List String
  | [] => ([], [])
  | (backendKey, ops) :: rest =>
      let parts := backendKey.splitOn "_"
      if parts.length < 2 then
        offboardUserFromAllBackends userData rest
      else
        let backendType := (parts.getLastD "").toLower
        if skippedBackendTypes.contains backendType then
          offboardUserFromAllBackends userData rest
        else
          match lookupStr userData backendKey with
          | none => offboardUserFromAllBackends userData rest
          | some userID =>
              let (tr, errs) := offboardUserFromAllBackends userData rest
              match ops.deleteUser userID with
              | .error e =>
                  (Call.deleteUser backendKey userID :: tr,
                    ("backend " ++ backendKey ++ ": " ++ e) :: errs)
              | .ok _ => (Call.deleteUser backendKey userID :: tr, errs)

/-- UserOffboardingJob.removeUserFromUserList: rewrite the user_list cache
entry without the offboarded user; failures reading the list are tolerated
by the caller. -/
def removeUserFromUserList (cache : CacheStore) (userID : String) :
    CacheStore × List Call × Except String Unit :=
  match cacheLookup cache "user_list" with
  | none => (cache, [], .error "failed to get user list from cache")
  | some v =>
      match unmarshalList v with
      | .error e => (cache, [], .error e)
      | .ok userList =>
          let updated := userList.filter (fun u => u != userID)
          (cacheSetStore cache "user_list" (.vlist updated),
            [Call.cacheSet "user_list" (.vlist updated)], .ok ())

/-- UserOffboardingJob.offboardUser: resolve the user mapping by pattern
search, delete the user from every non-preserved backend (aborting before
any cache mutation when a backend deletion failed), then delete the cache
entry and rewrite user_list (the latter failure only logged). -/
def offboardUser (env : OffboardEnv) (cache : CacheStore) (userKey : String) :
    Except String Unit × CacheStore × List Call :=
  match getUserDataFromCache cache userKey with
  | .error e => (.error ("failed to get user data from cache: " ++ e), cache, [])
  | .ok (userData, userEmail) =>
      match offboardUserFromAllBackends userData env.backendClients with
      | (tr, errs) =>
          if errs.isEmpty then
            let cache2 := cacheDeleteStore cache userEmail
            match removeUserFromUserList cache2 userKey with
            | (cache3, tr2, _) =>
                (.ok (), cache3, tr ++ [Call.cacheDelete userEmail] ++ tr2)
          else
            (.error ("failed to offboard user " ++ userKey ++ " from backends"),
              cache, tr)

/-- UserOffboardingJob.processUser: check the directory and offboard the
user when inactive; a lookup failure is recorded and nothing is touched.
The Bool result reports whether the user was offboarded. -/
def processUserJob (env : OffboardEnv) (cache : CacheStore) (userKey : String) :
    Except String Bool × CacheStore × List Call :=
  match isUserActiveInLDAP env userKey with
  | .error _ =>
      (.error ("failed to check LDAP for user " ++ userKey), cache, [])
  | .ok true => (.ok false, cache, [])
  | .ok false =>
      match offboardUser env cache userKey with
      | (.error e, cache2, tr) => (.error e, cache2, tr)
      | (.ok _, cache2, tr) => (.ok true, cache2, tr)

/- ### Association-list lemmas -/

theorem lookupStr_setStr (k v k2 : String) :
    ∀ m : List (String × String),
    lookupStr (setStr m k v) k2 = if k2 = k then some v else lookupStr m k2 := by
  intro m
  induction m with
  | nil =>
      by_cases h : k2 = k
      · simp [setStr, lookupStr, h]
      · have hb : (k == k2) = false := beq_eq_false_iff_ne.mpr (Ne.symm h)
        simp [setStr, lookupStr, hb, h]
  | cons p m ih =>
      rcases p with ⟨k1, v1⟩
      by_cases h1 : k1 = k
      · subst h1
        by_cases h2 : k2 = k1
        · simp [setStr, lookupStr, h2]
        · have hb : (k1 == k2) = false := beq_eq_false_iff_ne.mpr (Ne.symm h2)
          simp [setStr, lookupStr, hb, h2]
      · have hb1 : (k1 == k) = false := beq_eq_false_iff_ne.mpr h1
        by_cases h2 : k2 = k1
        · subst h2
          have h3 : ¬ k2 = k := h1
          simp [setStr, lookupStr, hb1, h3]
        · have hb2 : (k1 == k2) = false := beq_eq_false_iff_ne.mpr (Ne.symm h2)
          simp [setStr, lookupStr, hb1, hb2, ih]

theorem lookupStr_delStr (k k2 : String) :
    ∀ m : List (String × String),
    lookupStr (delStr m k) k2 = if k2 = k then none else lookupStr m k2 := by
  intro m
  induction m with
  | nil => by_cases h : k2 = k <;> simp [delStr, lookupStr, h]
  | cons p m ih =>
      rcases p with ⟨k1, v1⟩
      by_cases h1 : k1 = k
      · subst h1
        by_cases h2 : k2 = k1
        · subst h2
          simp only [delStr, List.filter, bne_self_eq_false] at ih ⊢
          simp [ih]
        · have hb : (k1 == k2) = false := beq_eq_false_iff_ne.mpr (Ne.symm h2)
          simp only [delStr, List.filter, bne_self_eq_false] at ih ⊢
          rw [ih]
          simp [lookupStr, hb, h2]
      · have hbne : (k1 != k) = true := by
          simp only [bne_iff_ne, ne_eq]
          exact h1
        by_cases h2 : k2 = k1
        · subst h2
          have h3 : ¬ k2 = k := h1
          simp only [delStr, List.filter] at ih ⊢
          rw [hbne]
          simp [lookupStr, h3]
        · have hb2 : (k1 == k2) = false := beq_eq_false_iff_ne.mpr (Ne.symm h2)
          simp only [delStr, List.filter] at ih ⊢
          rw [hbne]
          simp only [lookupStr, hb2, Bool.false_eq_true, if_false]
          exact ih

theorem cacheLookup_set (k : String) (v : CacheValue) (k2 : String) :
    ∀ c : CacheStore,
    cacheLookup (cacheSetStore c k v) k2 = if k2 = k then some v else cacheLookup c k2 := by
  intro c
  induction c with
  | nil =>
      by_cases h : k2 = k
      · simp [cacheSetStore, cacheLookup, h]
      · have hb : (k == k2) = false := beq_eq_false_iff_ne.mpr (Ne.symm h)
        simp [cacheSetStore, cacheLookup, hb, h]
  | cons p c ih =>
      rcases p with ⟨k1, v1⟩
      by_cases h1 : k1 = k
      · subst h1
        by_cases h2 : k2 = k1
        · simp [cacheSetStore, cacheLookup, h2]
        · have hb : (k1 == k2) = false := beq_eq_false_iff_ne.mpr (Ne.symm h2)
          simp [cacheSetStore, cacheLookup, hb, h2]
      · have hb1 : (k1 == k) = false := beq_eq_false_iff_ne.mpr h1
        by_cases h2 : k2 = k1
        · subst h2
          have h3 : ¬ k2 = k := h1
          simp [cacheSetStore, cacheLookup, hb1, h3]
        · have hb2 : (k1 == k2) = false := beq_eq_false_iff_ne.mpr (Ne.symm h2)
          simp [cacheSetStore, cacheLookup, hb1, hb2, ih]

theorem cacheLookup_delete (k k2 : String) :
    ∀ c : CacheStore,
    cacheLookup (cacheDeleteStore c k) k2 = if k2 = k then none else cacheLookup c k2 := by
  intro c
  induction c with
  | nil => by_cases h : k2 = k <;> simp [cacheDeleteStore, cacheLookup, h]
  | cons p c ih =>
      rcases p with ⟨k1, v1⟩
      by_cases h1 : k1 = k
      · subst h1
        by_cases h2 : k2 = k1
        · subst h2
          simp only [cacheDeleteStore, List.filter, bne_self_eq_false] at ih ⊢
          simp [ih]
        · have hb : (k1 == k2) = false := beq_eq_false_iff_ne.mpr (Ne.symm h2)
          simp only [cacheDeleteStore, List.filter, bne_self_eq_false] at ih ⊢
          rw [ih]
          simp [cacheLookup, hb, h2]
      · have hbne : (k1 != k) = true := by
          simp only [bne_iff_ne, ne_eq]
          exact h1
        by_cases h2 : k2 = k1
        · subst h2
          have h3 : ¬ k2 = k := h1
          simp only [cacheDeleteStore, List.filter] at ih ⊢
          rw [hbne]
          simp [cacheLookup, h3]
        · have hb2 : (k1 == k2) = false := beq_eq_false_iff_ne.mpr (Ne.symm h2)
          simp only [cacheDeleteStore, List.filter] at ih ⊢
          rw [hbne]
          simp only [cacheLookup, hb2, Bool.false_eq_true, if_false]
          exact ih

theorem lookupUser_isSome_iff_mem_keys (k : String) :
    ∀ m : List (String × User),
    (lookupUser m k).isSome ↔ k ∈ m.map (fun p => p.1) := by
  intro m
  induction m with
  | nil => simp [lookupUser]
  | cons p m ih =>
      rcases p with ⟨k1, v1⟩
      by_cases h : k1 = k
      · subst h
        simp [lookupUser]
      · have hb : (k1 == k) = false := beq_eq_false_iff_ne.mpr h
        simp [lookupUser, hb, ih, Ne.symm h]

/- ### Loop and status lemmas -/

theorem setStr_ne_nil (m : List (String × String)) (k v : String) :
    setStr m k v ≠ [] := by
  cases m with
  | nil => simp [setStr]
  | cons p m =>
      rcases p with ⟨k1, v1⟩
      by_cases h : k1 == k <;> simp [setStr, h]

theorem lookupStr_setStr_preserve (m : List (String × String)) (k v k2 : String)
    (h : lookupStr m k2 ≠ none) : lookupStr (setStr m k v) k2 ≠ none := by
  rw [lookupStr_setStr]
  by_cases h2 : k2 = k <;> simp [h2, h]

/-- Within one reconcile pass, the isError flag is set exactly when the
backend-errors map is non-empty. -/
theorem reconcileBackends_invariant (env : ReconcilerEnv) (gname : String)
    (mem : List String) :
    ∀ (bs : List Backend) (cache : CacheStore) (berrs : List (String × String))
      (isErr : Bool) (tr : List Call) (berrs2 : List (String × String))
      (isErr2 : Bool) (cache2 : CacheStore) (tr2 : List Call),
    reconcileBackends env gname mem bs cache berrs isErr tr =
      .completed berrs2 isErr2 cache2 tr2 →
    (isErr = true ↔ berrs ≠ []) → (isErr2 = true ↔ berrs2 ≠ []) := by
  intro bs
  induction bs with
  | nil =>
      intro cache berrs isErr tr berrs2 isErr2 cache2 tr2 h hinv
      rw [reconcileBackends] at h
      injection h with h1 h2 h3 h4
      subst h1; subst h2
      exact hinv
  | cons b rest ih =>
      intro cache berrs isErr tr berrs2 isErr2 cache2 tr2 h hinv
      rw [reconcileBackends] at h
      cases hp : processBackend env gname mem b cache with
      | mk outcome rest2 =>
          rcases rest2 with ⟨c2, tr2x⟩
          rw [hp] at h
          cases outcome with
          | recorded e =>
              exact ih c2 (setStr berrs b.btype e) true (tr ++ tr2x) _ _ _ _ h
                ⟨fun _ => setStr_ne_nil berrs b.btype e, fun _ => rfl⟩
          | abortOnAddRemove e => cases h
          | success => exact ih c2 berrs isErr (tr ++ tr2x) _ _ _ _ h hinv

/-- A key present in the backend-errors map stays present for the rest of
the loop. -/
theorem reconcileBackends_keys (env : ReconcilerEnv) (gname : String)
    (mem : List String) :
    ∀ (bs : List Backend) (cache : CacheStore) (berrs : List (String × String))
      (isErr : Bool) (tr : List Call) (berrs2 : List (String × String))
      (isErr2 : Bool) (cache2 : CacheStore) (tr2 : List Call),
    reconcileBackends env gname mem bs cache berrs isErr tr =
      .completed berrs2 isErr2 cache2 tr2 →
    ∀ k, lookupStr berrs k ≠ none → lookupStr berrs2 k ≠ none := by
  intro bs
  induction bs with
  | nil =>
      intro cache berrs isErr tr berrs2 isErr2 cache2 tr2 h k hk
      rw [reconcileBackends] at h
      injection h with h1 h2 h3 h4
      subst h1
      exact hk
  | cons b rest ih =>
      intro cache berrs isErr tr berrs2 isErr2 cache2 tr2 h k hk
      rw [reconcileBackends] at h
      cases hp : processBackend env gname mem b cache with
      | mk outcome rest2 =>
          rcases rest2 with ⟨c2, tr2x⟩
          rw [hp] at h
          cases outcome with
          | recorded e =>
              exact ih c2 (setStr berrs b.btype e) true (tr ++ tr2x) _ _ _ _ h k
                (lookupStr_setStr_preserve berrs b.btype e k hk)
          | abortOnAddRemove e => cases h
          | success => exact ih c2 berrs isErr (tr ++ tr2x) _ _ _ _ h k hk

theorem condLookup_upsert (conds : List Condition) (c : Condition) :
    condLookup (upsertCondition conds c) c.ctype = some c := by
  induction conds with
  | nil => simp [upsertCondition, condLookup]
  | cons c1 rest ih =>
      by_cases h : c1.ctype == c.ctype
      · simp [upsertCondition, condLookup, h]
      · simp [upsertCondition, condLookup, h, ih]

/- ### processUsers characterization -/

theorem collectSyncAndMissing_ok (env : ReconcilerEnv) (cache : CacheStore)
    (members : List (String × User)) (b : Backend) :
    ∀ (users : List String) (sync rem : List String),
    collectSyncAndMissing env cache members b users = .ok (sync, rem) →
    sync = users.filterMap (cachedId env cache b) ∧
    rem = users.filter
      (fun u => (env.ldapData u).isNone && (lookupUser members u).isSome) ∧
    ∀ u ∈ users, (env.ldapData u).isSome → (cachedId env cache b u).isSome := by
  intro users
  induction users with
  | nil =>
      intro sync rem h
      rw [collectSyncAndMissing] at h
      injection h with h
      injection h with h1 h2
      subst h1; subst h2
      simp
  | cons u rest ih =>
      intro sync rem h
      rw [collectSyncAndMissing] at h
      cases hld : env.ldapData u with
      | none =>
          rw [hld] at h
          try dsimp only at h
          cases hrec : collectSyncAndMissing env cache members b rest with
          | error e => rw [hrec] at h; cases h
          | ok p =>
              rcases p with ⟨sync1, rem1⟩
              rw [hrec] at h
              try dsimp only at h
              rcases ih sync1 rem1 hrec with ⟨ihs, ihr, ihall⟩
              cases hmem : (lookupUser members u).isSome with
              | true =>
                  rw [hmem] at h
                  try dsimp only at h
                  simp only [if_true] at h
                  injection h with h
                  injection h with h1 h2
                  subst h1; subst h2
                  refine ⟨?_, ?_, ?_⟩
                  · simp [List.filterMap, cachedId, hld, ihs]
                  · simp [List.filter, hld, hmem, ihr]
                  · intro u2 hu2 hsome
                    rcases List.mem_cons.mp hu2 with rfl | h2
                    · rw [hld] at hsome; cases hsome
                    · exact ihall u2 h2 hsome
              | false =>
                  rw [hmem] at h
                  try dsimp only at h
                  simp only [Bool.false_eq_true, if_false] at h
                  injection h with h
                  injection h with h1 h2
                  subst h1; subst h2
                  refine ⟨?_, ?_, ?_⟩
                  · simp [List.filterMap, cachedId, hld, ihs]
                  · simp [List.filter, hld, hmem, ihr]
                  · intro u2 hu2 hsome
                    rcases List.mem_cons.mp hu2 with rfl | h2
                    · rw [hld] at hsome; cases hsome
                    · exact ihall u2 h2 hsome
      | some ud =>
          rw [hld] at h
          try dsimp only at h
          cases hget : env.cacheGet cache ud.email with
          | error e => rw [hget] at h; cases h
          | ok v =>
              rw [hget] at h
              try dsimp only at h
              cases hum : unmarshalMap v with
              | error e => rw [hum] at h; cases h
              | ok m =>
                  rw [hum] at h
                  try dsimp only at h
                  cases hlk : lookupStr m b.cacheKey with
                  | none => rw [hlk] at h; cases h
                  | some userID =>
                      rw [hlk] at h
                      try dsimp only at h
                      cases hid : userID == "" with
                      | true => rw [hid] at h; simp only [if_true] at h; cases h
                      | false =>
                          rw [hid] at h
                          try dsimp only at h
                          simp only [Bool.false_eq_true, if_false] at h
                          cases hrec : collectSyncAndMissing env cache members b rest with
                          | error e => rw [hrec] at h; cases h
                          | ok p =>
                              rcases p with ⟨sync1, rem1⟩
                              rw [hrec] at h
                              try dsimp only at h
                              injection h with h
                              injection h with h1 h2
                              subst h1; subst h2
                              rcases ih sync1 rem1 hrec with ⟨ihs, ihr, ihall⟩
                              refine ⟨?_, ?_, ?_⟩
                              · simp [List.filterMap, cachedId, hld, hget, hum,
                                  hlk, hid, ihs]
                              · simp [List.filter, hld, ihr]
                              · intro u2 hu2 hsome
                                rcases List.mem_cons.mp hu2 with rfl | h2
                                · simp [cachedId, hld, hget, hum, hlk, hid]
                                · exact ihall u2 h2 hsome

theorem processUsers_ok (env : ReconcilerEnv) (cache : CacheStore)
    (members : List (String × User)) (b : Backend) (users toAdd toRemove : List String)
    (h : processUsers env cache users members b = .ok (toAdd, toRemove)) :
    toAdd = (users.filterMap (cachedId env cache b)).filter
        (fun id => (lookupUser members id).isNone) ∧
    toRemove =
      users.filter
        (fun u => (env.ldapData u).isNone && (lookupUser members u).isSome) ++
      (members.map (fun p => p.1)).filter
        (fun id => !(users.filterMap (cachedId env cache b)).contains id) ∧
    ∀ u ∈ users, (env.ldapData u).isSome → (cachedId env cache b u).isSome := by
  rw [processUsers] at h
  cases hc : collectSyncAndMissing env cache members b users with
  | error e => rw [hc] at h; cases h
  | ok p =>
      rcases p with ⟨sync, rem⟩
      rw [hc] at h
      dsimp only at h
      injection h with h
      injection h with h1 h2
      rcases collectSyncAndMissing_ok env cache members b users sync rem hc with
        ⟨hs, hr, hall⟩
      subst hs; subst hr; subst h1; subst h2
      exact ⟨rfl, rfl, hall⟩

/-- fetchOrCreateTeam returns straight from the cache when the transformed
name resolves and the entry records a non-empty id for this backend. -/
theorem fetchOrCreateTeam_cached (env : ReconcilerEnv) (ops : ClientOps)
    (cache : CacheStore) (gname : String) (b : Backend) (tname : String)
    (tm : List (String × String)) (tid : String)
    (ht : env.transform b.btype gname = .ok tname)
    (hget : env.cacheGet cache tname = .ok (.vmap tm))
    (hid : lookupStr tm b.cacheKey = some tid) (hne : tid ≠ "") :
    fetchOrCreateTeam env ops cache gname b = (.ok tid, cache, []) := by
  have hb : (tid == "") = false := beq_eq_false_iff_ne.mpr hne
  rw [fetchOrCreateTeam, ht]
  dsimp only
  rw [hget]
  dsimp only [unmarshalMap]
  rw [hid]
  dsimp only
  rw [hb]
  rfl

/-- createUsersInBackendAndCache is a no-op when every enrichable user is
already cached with a non-empty backend id. -/
theorem createUsers_all_cached (env : ReconcilerEnv) (ops : ClientOps) (b : Backend) :
    ∀ (users : List String) (cache : CacheStore),
    (∀ u ∈ users, ∀ ud, env.ldapData u = some ud →
      ∃ m id, env.cacheGet cache ud.email = .ok (.vmap m) ∧
        lookupStr m b.cacheKey = some id ∧ id ≠ "") →
    createUsersInBackendAndCache env ops users b cache = (.ok (), cache, []) := by
  intro users
  induction users with
  | nil => intro cache hcached; rw [createUsersInBackendAndCache]
  | cons u rest ih =>
      intro cache hcached
      rw [createUsersInBackendAndCache]
      cases hld : env.ldapData u with
      | none =>
          dsimp only
          exact ih cache (fun u2 h2 => hcached u2 (List.mem_cons_of_mem _ h2))
      | some ud =>
          rcases hcached u (List.mem_cons_self _ _) ud hld with
            ⟨m, id, hget, hid, hne⟩
          have hb : (id == "") = false := beq_eq_false_iff_ne.mpr hne
          dsimp only
          rw [hget]
          dsimp only [unmarshalMap]
          rw [hid]
          dsimp only
          rw [hb]
          simp only [Bool.false_eq_true, if_false]
          rw [ih cache (fun u2 h2 => hcached u2 (List.mem_cons_of_mem _ h2))]
          rfl

/-- On a cache miss for the transformed team name, fetchOrCreateTeam
proceeds to issue CreateTeam (the head of its trace) rather than failing. -/
theorem fetchOrCreateTeam_miss (env : ReconcilerEnv) (ops : ClientOps)
    (cache : CacheStore) (gname : String) (b : Backend) (tname err : String)
    (ht : env.transform b.btype gname = .ok tname)
    (hget : env.cacheGet cache tname = .error err) :
    ∃ tr, (fetchOrCreateTeam env ops cache gname b).2.2 =
      Call.createTeam b
        { id := "", name := tname, description := "team for " ++ gname,
          role := accountReviewerRole } :: tr := by
  rw [fetchOrCreateTeam, ht]
  dsimp only
  rw [hget]
  dsimp only [createTeamPath]
  cases hct : ops.createTeam
      { id := "", name := tname, description := "team for " ++ gname,
        role := accountReviewerRole } with
  | error e => exact ⟨[], rfl⟩
  | ok t => exact ⟨_, rfl⟩

/-- On a cache miss for the user email, user onboarding proceeds to issue
CreateUser (the head of its trace) rather than failing. -/
theorem createUsers_miss (env : ReconcilerEnv) (ops : ClientOps) (b : Backend)
    (u : String) (rest : List String) (cache : CacheStore) (ud : LDAPUser)
    (err : String) (hld : env.ldapData u = some ud)
    (hget : env.cacheGet cache ud.email = .error err) :
    ∃ tr, (createUsersInBackendAndCache env ops (u :: rest) b cache).2.2 =
      Call.createUser b
        { id := "", userName := u, email := ud.email,
          firstName := ud.displayName, lastName := ud.sn,
          role := accountReviewerRole } :: tr := by
  rw [createUsersInBackendAndCache]
  rw [hld]
  dsimp only
  rw [hget]
  dsimp only [createUserPath]
  cases hcu : ops.createUser
      { id := "", userName := u, email := ud.email,
        firstName := ud.displayName, lastName := ud.sn,
        role := accountReviewerRole } with
  | error e => exact ⟨[], rfl⟩
  | ok nu =>
      dsimp only
      cases hrec : createUsersInBackendAndCache env ops rest b
          (cacheSetStore cache ud.email
            (.vmap (setStr [] b.cacheKey nu.id))) with
      | mk res p =>
          rcases p with ⟨c3, tr2⟩
          cases res with
          | error e => exact ⟨_, rfl⟩
          | ok x => exact ⟨_, rfl⟩

theorem collectSyncAndMissing_succeeds (env : ReconcilerEnv) (cache : CacheStore)
    (members : List (String × User)) (b : Backend) :
    ∀ users : List String,
    (∀ u ∈ users, ∀ ud, env.ldapData u = some ud →
      ∃ m id, env.cacheGet cache ud.email = .ok (.vmap m) ∧
        lookupStr m b.cacheKey = some id ∧ id ≠ "") →
    ∃ sync rem, collectSyncAndMissing env cache members b users = .ok (sync, rem) := by
  intro users
  induction users with
  | nil => intro _; exact ⟨[], [], rfl⟩
  | cons u rest ih =>
      intro hcached
      rcases ih (fun u2 h2 => hcached u2 (List.mem_cons_of_mem _ h2)) with
        ⟨sync1, rem1, hrec⟩
      rw [collectSyncAndMissing]
      cases hld : env.ldapData u with
      | none =>
          dsimp only
          rw [hrec]
          dsimp only
          cases hmem : (lookupUser members u).isSome with
          | true => exact ⟨sync1, u :: rem1, rfl⟩
          | false => exact ⟨sync1, rem1, rfl⟩
      | some ud =>
          rcases hcached u (List.mem_cons_self _ _) ud hld with
            ⟨m, id, hget, hid, hne⟩
          have hb : (id == "") = false := beq_eq_false_iff_ne.mpr hne
          dsimp only
          rw [hget]
          dsimp only [unmarshalMap]
          rw [hid]
          dsimp only
          rw [hb]
          simp only [Bool.false_eq_true, if_false]
          rw [hrec]
          exact ⟨id :: sync1, rem1, rfl⟩

/-- processUsers yields empty add and remove sets when the declared and
observed memberships already agree. -/
theorem processUsers_noop (env : ReconcilerEnv) (cache : CacheStore)
    (members : List (String × User)) (b : Backend) (users : List String)
    (husers : ∀ u ∈ users, (env.ldapData u).isSome)
    (hcached : ∀ u ∈ users, ∀ ud, env.ldapData u = some ud →
      ∃ m id, env.cacheGet cache ud.email = .ok (.vmap m) ∧
        lookupStr m b.cacheKey = some id ∧ id ≠ "")
    (hmem1 : ∀ p ∈ members, ∃ u ∈ users, cachedId env cache b u = some p.1)
    (hmem2 : ∀ u ∈ users, ∀ id, cachedId env cache b u = some id →
      (lookupUser members id).isSome) :
    processUsers env cache users members b = .ok ([], []) := by
  rcases collectSyncAndMissing_succeeds env cache members b users hcached with
    ⟨sync, rem, hc⟩
  rcases collectSyncAndMissing_ok env cache members b users sync rem hc with
    ⟨hs, hr, hall⟩
  rw [processUsers, hc]
  dsimp only
  have htoAdd : sync.filter (fun userID => (lookupUser members userID).isNone) = [] := by
    apply List.filter_eq_nil_iff.mpr
    intro id hid
    subst hs
    rcases List.mem_filterMap.mp hid with ⟨u, hu, hcid⟩
    have hsome := hmem2 u hu id hcid
    cases hx : lookupUser members id with
    | none => rw [hx] at hsome; cases hsome
    | some w => simp [hx]
  have hrem : rem = [] := by
    subst hr
    apply List.filter_eq_nil_iff.mpr
    intro u hu
    have hsome := husers u hu
    cases hx : env.ldapData u with
    | none => rw [hx] at hsome; cases hsome
    | some w => simp [hx]
  have hextra :
      (members.map (fun p => p.1)).filter (fun id => !sync.contains id) = [] := by
    apply List.filter_eq_nil_iff.mpr
    intro id hid
    rcases List.mem_map.mp hid with ⟨p, hp, hpid⟩
    rcases hmem1 p hp with ⟨u, hu, hcid⟩
    have hmemsync : id ∈ sync := by
      rw [hs]
      exact List.mem_filterMap.mpr ⟨u, hu, by rw [hcid, hpid]⟩
    have hcont : sync.contains id = true := List.elem_iff.mpr hmemsync
    simp [hcont, hmemsync]
  rw [htoAdd, hrem, hextra]
  rfl

/-- C8: when the declared state already matches the observed state for a
backend (team id cached, every expanded user cached with a backend id, and
the fetched membership equal to exactly those ids), the per-backend pass
issues no CreateTeam, CreateUser, AddUserToTeam or RemoveUserFromTeam call
and performs no cache Set or Delete: the trace is empty and the cache is
returned unchanged. -/
theorem claim_C8_idempotent (env : ReconcilerEnv) (ops : ClientOps)
    (cache : CacheStore) (gname : String) (b : Backend) (tname : String)
    (tm : List (String × String)) (tid : String) (users : List String)
    (members : List (String × User))
    (hclient : env.newClient b = .ok ops)
    (ht : env.transform b.btype gname = .ok tname)
    (hget : env.cacheGet cache tname = .ok (.vmap tm))
    (hid : lookupStr tm b.cacheKey = some tid) (hne : tid ≠ "")
    (husers : ∀ u ∈ users, (env.ldapData u).isSome)
    (hcached : ∀ u ∈ users, ∀ ud, env.ldapData u = some ud →
      ∃ m id, env.cacheGet cache ud.email = .ok (.vmap m) ∧
        lookupStr m b.cacheKey = some id ∧ id ≠ "")
    (hmembers : ops.fetchTeamMembersByTeamID tid = .ok members)
    (hmem1 : ∀ p ∈ members, ∃ u ∈ users, cachedId env cache b u = some p.1)
    (hmem2 : ∀ u ∈ users, ∀ id, cachedId env cache b u = some id →
      (lookupUser members id).isSome) :
    processBackend env gname users b cache = (.success, cache, []) := by
  rw [processBackend, hclient]
  dsimp only
  rw [fetchOrCreateTeam_cached env ops cache gname b tname tm tid ht hget hid hne]
  dsimp only
  rw [createUsers_all_cached env ops b users cache hcached]
  dsimp only
  rw [hmembers]
  dsimp only
  rw [processUsers_noop env cache members b users husers hcached hmem1 hmem2]
  dsimp only
  rfl

/- ### Deletion-path lemmas -/

theorem inmemoryGet_ok_iff (c : CacheStore) (k : String) (v : CacheValue) :
    inmemoryGet c k = .ok v ↔ cacheLookup c k = some v := by
  rw [inmemoryGet]
  cases h : cacheLookup c k with
  | none => simp
  | some w => simp

theorem lookupStr_ne_nil {m : List (String × String)} {k v : String}
    (h : lookupStr m k = some v) : m ≠ [] := by
  intro he
  subst he
  rw [lookupStr] at h
  cases h

/-- The statement that the cache never records a non-empty id for a given
entry key and inner key. -/
def NoRecordedId (cache : CacheStore) (tname key : String) : Prop :=
  ∀ m id, cacheLookup cache tname = some (.vmap m) →
    lookupStr m key = some id → id ≠ "" → False

/-- The deletion loop never introduces a recorded id: if an entry key holds
no non-empty id for some inner key beforehand, the same holds afterwards,
whatever the outcome. -/
theorem deleteBackendsTeam_preserves (env : ReconcilerEnv) (gname : String)
    (henv : env.cacheGet = inmemoryGet) :
    ∀ (bs : List Backend) (cache c2 : CacheStore) (tr : List Call)
      (res : Except String Unit),
    deleteBackendsTeam env gname bs cache = (c2, tr, res) →
    ∀ tname key, NoRecordedId cache tname key → NoRecordedId c2 tname key := by
  intro bs
  induction bs with
  | nil =>
      intro cache c2 tr res h tname key hno
      rw [deleteBackendsTeam] at h
      injection h with h1 h2
      subst h1
      exact hno
  | cons b rest ih =>
      intro cache c2 tr res h tname key hno
      rw [deleteBackendsTeam] at h
      cases ht2 : env.transform b.btype gname with
      | error e => rw [ht2] at h; injection h with h1 h2; subst h1; exact hno
      | ok tnameH =>
          rw [ht2] at h
          try dsimp only at h
          cases hcl : env.newClient b with
          | error e => rw [hcl] at h; injection h with h1 h2; subst h1; exact hno
          | ok ops =>
              rw [hcl] at h
              try dsimp only at h
              cases hget : env.cacheGet cache tnameH with
              | error e2 =>
                  rw [hget] at h
                  try dsimp only at h
                  exact ih cache c2 tr res h tname key hno
              | ok v =>
                  rw [hget] at h
                  try dsimp only at h
                  cases hum : unmarshalMap v with
                  | error e2 =>
                      rw [hum] at h
                      injection h with h1 h2
                      subst h1
                      exact hno
                  | ok m =>
                      rw [hum] at h
                      try dsimp only at h
                      cases hlk : lookupStr m b.cacheKey with
                      | none =>
                          rw [hlk] at h
                          try dsimp only at h
                          exact ih cache c2 tr res h tname key hno
                      | some teamID =>
                          rw [hlk] at h
                          try dsimp only at h
                          cases hid : teamID == "" with
                          | true =>
                              rw [hid] at h
                              simp only [if_true] at h
                              exact ih cache c2 tr res h tname key hno
                          | false =>
                              rw [hid] at h
                              simp only [Bool.false_eq_true, if_false] at h
                              cases hdel : ops.deleteTeamByID teamID with
                              | error e2 =>
                                  rw [hdel] at h
                                  injection h with h1 h2
                                  subst h1
                                  exact hno
                              | ok u2 =>
                                  rw [hdel] at h
                                  try dsimp only at h
                                  have hGetLookup : cacheLookup cache tnameH = some v := by
                                    rw [henv] at hget
                                    exact (inmemoryGet_ok_iff cache tnameH v).mp hget
                                  have hvm : v = .vmap m := by
                                    cases v with
                                    | vmap m2 =>
                                        rw [unmarshalMap] at hum
                                        injection hum with hum
                                        rw [hum]
                                    | vlist l => rw [unmarshalMap] at hum; cases hum
                                  -- invariant after delete and optional re-set
                                  have hnoMid : ∀ cacheMid,
                                      (cacheMid = cacheDeleteStore cache tnameH ∨
                                       cacheMid = cacheSetStore (cacheDeleteStore cache tnameH)
                                         tnameH (.vmap (delStr m b.cacheKey))) →
                                      NoRecordedId cacheMid tname key := by
                                    intro cacheMid hmid
                                    intro m2 id2 hcl2 hlk2 hne2
                                    by_cases htn : tname = tnameH
                                    · subst htn
                                      rcases hmid with rfl | rfl
                                      · rw [cacheLookup_delete] at hcl2
                                        simp at hcl2
                                      · rw [cacheLookup_set] at hcl2
                                        simp only [if_pos rfl] at hcl2
                                        injection hcl2 with hcl2
                                        injection hcl2 with hcl2
                                        subst hcl2
                                        rw [lookupStr_delStr] at hlk2
                                        by_cases hkk : key = b.cacheKey
                                        · simp [hkk] at hlk2
                                        · simp only [hkk, if_false] at hlk2
                                          exact hno m id2 (by rw [hGetLookup, hvm])
                                            hlk2 hne2
                                    · rcases hmid with rfl | rfl
                                      · rw [cacheLookup_delete] at hcl2
                                        simp only [htn, if_false] at hcl2
                                        exact hno m2 id2 hcl2 hlk2 hne2
                                      · rw [cacheLookup_set] at hcl2
                                        simp only [htn, if_false] at hcl2
                                        rw [cacheLookup_delete] at hcl2
                                        simp only [htn, if_false] at hcl2
                                        exact hno m2 id2 hcl2 hlk2 hne2
                                  cases hemp : (delStr m b.cacheKey).isEmpty with
                                  | true =>
                                      rw [hemp] at h
                                      simp only [if_true] at h
                                      cases hrec : deleteBackendsTeam env gname rest
                                          (cacheDeleteStore cache tnameH) with
                                      | mk c3 p =>
                                          rw [hrec] at h
                                          try dsimp only at h
                                          rcases p with ⟨tr3, res3⟩
                                          injection h with h1 h2
                                          subst h1
                                          exact ih _ _ _ _ hrec tname key
                                            (hnoMid _ (Or.inl rfl))
                                  | false =>
                                      rw [hemp] at h
                                      simp only [Bool.false_eq_true, if_false] at h
                                      cases hrec : deleteBackendsTeam env gname rest
                                          (cacheSetStore (cacheDeleteStore cache tnameH)
                                            tnameH (.vmap (delStr m b.cacheKey))) with
                                      | mk c3 p =>
                                          rw [hrec] at h
                                          try dsimp only at h
                                          rcases p with ⟨tr3, res3⟩
                                          injection h with h1 h2
                                          subst h1
                                          exact ih _ _ _ _ hrec tname key
                                            (hnoMid _ (Or.inr rfl))

/-- Soundness of the finalizer cleanup: when deleteBackendsTeam succeeds,
no declared backend retains a recorded team id under its transformed name,
and every id that was recorded when the run started had DeleteTeamByID
issued for it (assuming pairwise distinct backend instance keys). -/
theorem deleteBackendsTeam_spec (env : ReconcilerEnv) (gname : String)
    (henv : env.cacheGet = inmemoryGet) :
    ∀ (bs : List Backend) (cache c2 : CacheStore) (tr : List Call),
    deleteBackendsTeam env gname bs cache = (c2, tr, .ok ()) →
    (bs.map Backend.cacheKey).Nodup →
    ∀ b ∈ bs, ∀ tname, env.transform b.btype gname = .ok tname →
      NoRecordedId c2 tname b.cacheKey ∧
      (∀ m id, cacheLookup cache tname = some (.vmap m) →
        lookupStr m b.cacheKey = some id → id ≠ "" → Call.deleteTeam b id ∈ tr) := by
  intro bs
  induction bs with
  | nil =>
      intro cache c2 tr h hnd b hb
      cases hb
  | cons bh rest ih =>
      intro cache c2 tr h hnd b hb tname htb
      have hndtail : (rest.map Backend.cacheKey).Nodup := by
        simp only [List.map_cons, List.nodup_cons] at hnd
        exact hnd.2
      have hheadkey : ∀ b2 ∈ rest, bh.cacheKey ≠ b2.cacheKey := by
        intro b2 hb2 hkeq
        simp only [List.map_cons, List.nodup_cons] at hnd
        exact hnd.1 (hkeq ▸ List.mem_map_of_mem Backend.cacheKey hb2)
      rw [deleteBackendsTeam] at h
      cases ht2 : env.transform bh.btype gname with
      | error e =>
          rw [ht2] at h
          injection h with h1 h2
          injection h2 with h2 h3
          all_goals cases h3
      | ok tnameH =>
          rw [ht2] at h
          try dsimp only at h
          cases hcl : env.newClient bh with
          | error e =>
              rw [hcl] at h
              injection h with h1 h2
              injection h2 with h2 h3
              all_goals cases h3
          | ok ops =>
              rw [hcl] at h
              try dsimp only at h
              cases hget : env.cacheGet cache tnameH with
              | error e2 =>
                  rw [hget] at h
                  try dsimp only at h
                  have hmiss : cacheLookup cache tnameH = none := by
                    rw [henv, inmemoryGet] at hget
                    cases hx : cacheLookup cache tnameH with
                    | none => rfl
                    | some v => rw [hx] at hget; cases hget
                  rcases List.mem_cons.mp hb with rfl | hbrest
                  · have htn : tname = tnameH := Except.ok.inj (htb.symm.trans ht2)
                    subst htn
                    constructor
                    · exact deleteBackendsTeam_preserves env gname henv rest cache
                        c2 tr _ h tname b.cacheKey
                        (fun m id hclb _ _ => by rw [hmiss] at hclb; cases hclb)
                    · intro m id hclb
                      rw [hmiss] at hclb
                      cases hclb
                  · exact ih cache c2 tr h hndtail b hbrest tname htb
              | ok v =>
                  rw [hget] at h
                  try dsimp only at h
                  have hGetLookup : cacheLookup cache tnameH = some v := by
                    rw [henv] at hget
                    exact (inmemoryGet_ok_iff cache tnameH v).mp hget
                  cases hum : unmarshalMap v with
                  | error e2 =>
                      rw [hum] at h
                      injection h with h1 h2
                      injection h2 with h2 h3
                      all_goals cases h3
                  | ok m =>
                      rw [hum] at h
                      try dsimp only at h
                      have hvm : v = .vmap m := by
                        cases v with
                        | vmap m2 =>
                            rw [unmarshalMap] at hum
                            injection hum with hum
                            rw [hum]
                        | vlist l => rw [unmarshalMap] at hum; cases hum
                      have hlkm : cacheLookup cache tnameH = some (.vmap m) := by
                        rw [hGetLookup, hvm]
                      cases hlk : lookupStr m bh.cacheKey with
                      | none =>
                          rw [hlk] at h
                          try dsimp only at h
                          rcases List.mem_cons.mp hb with rfl | hbrest
                          · have htn : tname = tnameH := Except.ok.inj (htb.symm.trans ht2)
                            subst htn
                            constructor
                            · refine deleteBackendsTeam_preserves env gname henv rest
                                cache c2 tr _ h tname b.cacheKey ?_
                              intro m2 id hclb hlkb hne
                              rw [hlkm] at hclb
                              injection hclb with hclb
                              injection hclb with hclb
                              subst hclb
                              rw [hlk] at hlkb
                              cases hlkb
                            · intro m2 id hclb hlkb hne
                              rw [hlkm] at hclb
                              injection hclb with hclb
                              injection hclb with hclb
                              subst hclb
                              rw [hlk] at hlkb
                              cases hlkb
                          · exact ih cache c2 tr h hndtail b hbrest tname htb
                      | some teamID =>
                          rw [hlk] at h
                          try dsimp only at h
                          cases hid : teamID == "" with
                          | true =>
                              rw [hid] at h
                              simp only [if_true] at h
                              have hidstr : teamID = "" := by
                                exact beq_iff_eq.mp hid
                              rcases List.mem_cons.mp hb with rfl | hbrest
                              · have htn : tname = tnameH := Except.ok.inj (htb.symm.trans ht2)
                                subst htn
                                constructor
                                · refine deleteBackendsTeam_preserves env gname henv
                                    rest cache c2 tr _ h tname b.cacheKey ?_
                                  intro m2 id hclb hlkb hne
                                  rw [hlkm] at hclb
                                  injection hclb with hclb
                                  injection hclb with hclb
                                  subst hclb
                                  rw [hlk] at hlkb
                                  injection hlkb with hlkb
                                  exact hne (by rw [← hlkb, hidstr])
                                · intro m2 id hclb hlkb hne
                                  rw [hlkm] at hclb
                                  injection hclb with hclb
                                  injection hclb with hclb
                                  subst hclb
                                  rw [hlk] at hlkb
                                  injection hlkb with hlkb
                                  exact absurd (by rw [← hlkb, hidstr]) hne
                              · exact ih cache c2 tr h hndtail b hbrest tname htb
                          | false =>
                              rw [hid] at h
                              simp only [Bool.false_eq_true, if_false] at h
                              cases hdel : ops.deleteTeamByID teamID with
                              | error e2 =>
                                  rw [hdel] at h
                                  injection h with h1 h2
                                  injection h2 with h2 h3
                                  all_goals cases h3
                              | ok u2 =>
                                  rw [hdel] at h
                                  try dsimp only at h
                                  cases hemp : (delStr m bh.cacheKey).isEmpty with
                                  | true =>
                                      rw [hemp] at h
                                      simp only [if_true] at h
                                      cases hrec : deleteBackendsTeam env gname rest
                                          (cacheDeleteStore cache tnameH) with
                                      | mk c3 p =>
                                          rcases p with ⟨tr3, res3⟩
                                          rw [hrec] at h
                                          try dsimp only at h
                                          injection h with h1 h2
                                          injection h2 with h2 h3
                                          subst h1
                                          subst h2
                                          subst h3
                                          have hempnil : delStr m bh.cacheKey = [] :=
                                            List.isEmpty_iff.mp hemp
                                          rcases List.mem_cons.mp hb with rfl | hbrest
                                          · have htn : tname = tnameH := Except.ok.inj (htb.symm.trans ht2)
                                            subst htn
                                            constructor
                                            · refine deleteBackendsTeam_preserves env
                                                gname henv rest _ c3 tr3 _ hrec tname
                                                b.cacheKey ?_
                                              intro m2 id hclb hlkb hne
                                              rw [cacheLookup_delete] at hclb
                                              simp at hclb
                                            · intro m2 id hclb hlkb hne
                                              rw [hlkm] at hclb
                                              injection hclb with hclb
                                              injection hclb with hclb
                                              subst hclb
                                              rw [hlk] at hlkb
                                              injection hlkb with hlkb
                                              subst hlkb
                                              exact List.mem_append.mpr
                                                (Or.inl (List.mem_cons_self _ _))
                                          · constructor
                                            · exact (ih _ c3 tr3 hrec hndtail b hbrest
                                                tname htb).1
                                            · intro m2 id hclb hlkb hne
                                              by_cases htn : tname = tnameH
                                              · subst htn
                                                rw [hlkm] at hclb
                                                injection hclb with hclb
                                                injection hclb with hclb
                                                subst hclb
                                                have : lookupStr (delStr m bh.cacheKey)
                                                    b.cacheKey = some id := by
                                                  rw [lookupStr_delStr]
                                                  simp only [
                                                    Ne.symm (hheadkey b hbrest), if_false]
                                                  · exact hlkb
                                                rw [hempnil] at this
                                                rw [lookupStr] at this
                                                cases this
                                              · have hpres : cacheLookup
                                                    (cacheDeleteStore cache tnameH) tname =
                                                    some (.vmap m2) := by
                                                  rw [cacheLookup_delete]
                                                  simp only [htn, if_false]
                                                  exact hclb
                                                have := (ih _ c3 tr3 hrec hndtail b hbrest
                                                  tname htb).2 m2 id hpres hlkb hne
                                                exact List.mem_append.mpr (Or.inr this)
                                  | false =>
                                      rw [hemp] at h
                                      simp only [Bool.false_eq_true, if_false] at h
                                      cases hrec : deleteBackendsTeam env gname rest
                                          (cacheSetStore (cacheDeleteStore cache tnameH)
                                            tnameH (.vmap (delStr m bh.cacheKey))) with
                                      | mk c3 p =>
                                          rcases p with ⟨tr3, res3⟩
                                          rw [hrec] at h
                                          try dsimp only at h
                                          injection h with h1 h2
                                          injection h2 with h2 h3
                                          subst h1
                                          subst h2
                                          subst h3
                                          rcases List.mem_cons.mp hb with rfl | hbrest
                                          · have htn : tname = tnameH := Except.ok.inj (htb.symm.trans ht2)
                                            subst htn
                                            constructor
                                            · refine deleteBackendsTeam_preserves env
                                                gname henv rest _ c3 tr3 _ hrec tname
                                                b.cacheKey ?_
                                              intro m2 id hclb hlkb hne
                                              rw [cacheLookup_set] at hclb
                                              simp only [if_pos rfl] at hclb
                                              injection hclb with hclb
                                              injection hclb with hclb
                                              subst hclb
                                              rw [lookupStr_delStr] at hlkb
                                              simp at hlkb
                                            · intro m2 id hclb hlkb hne
                                              rw [hlkm] at hclb
                                              injection hclb with hclb
                                              injection hclb with hclb
                                              subst hclb
                                              rw [hlk] at hlkb
                                              injection hlkb with hlkb
                                              subst hlkb
                                              exact List.mem_append.mpr
                                                (Or.inl (List.mem_append.mpr
                                                  (Or.inl (List.mem_cons_self _ _))))
                                          · constructor
                                            · exact (ih _ c3 tr3 hrec hndtail b hbrest
                                                tname htb).1
                                            · intro m2 id hclb hlkb hne
                                              by_cases htn : tname = tnameH
                                              · subst htn
                                                rw [hlkm] at hclb
                                                injection hclb with hclb
                                                injection hclb with hclb
                                                subst hclb
                                                have hpres : cacheLookup
                                                    (cacheSetStore
                                                      (cacheDeleteStore cache tname)
                                                      tname
                                                      (.vmap (delStr m bh.cacheKey)))
                                                    tname =
                                                    some (.vmap (delStr m bh.cacheKey)) := by
                                                  rw [cacheLookup_set]
                                                  simp
                                                have hlkb2 : lookupStr
                                                    (delStr m bh.cacheKey) b.cacheKey =
                                                    some id := by
                                                  rw [lookupStr_delStr]
                                                  simp only [
                                                    Ne.symm (hheadkey b hbrest), if_false]
                                                  · exact hlkb
                                                have := (ih _ c3 tr3 hrec hndtail b hbrest
                                                  tname htb).2 _ id hpres hlkb2 hne
                                                exact List.mem_append.mpr (Or.inr this)
                                              · have hpres : cacheLookup
                                                    (cacheSetStore
                                                      (cacheDeleteStore cache tnameH)
                                                      tnameH
                                                      (.vmap (delStr m bh.cacheKey)))
                                                    tname = some (.vmap m2) := by
                                                  rw [cacheLookup_set]
                                                  simp only [htn, if_false]
                                                  rw [cacheLookup_delete]
                                                  simp only [htn, if_false]
                                                  exact hclb
                                                have := (ih _ c3 tr3 hrec hndtail b hbrest
                                                  tname htb).2 m2 id hpres hlkb hne
                                                exact List.mem_append.mpr (Or.inr this)

/- ### Name-transformer lemmas -/

/-- The rules effectively consulted for a backend type: the ordered list
configured for the type, else the list under the pseudo-type default, else
none. -/
def effectiveRules (pattern : List (String × List PatternEntry))
    (typeName : String) : List PatternEntry :=
  match (pattern.find? (fun p => p.1 == typeName)).map (fun p => p.2) with
  | some ps => ps
  | none =>
      match (pattern.find? (fun p => p.1 == "default")).map (fun p => p.2) with
      | some ps => ps
      | none => []

/-- Whether a rule matches the input (specification-side helper). -/
def matchesRule (compile : RegexOracle) (inputStr : String)
    (p : PatternEntry) : Bool :=
  match compile p.input with
  | some matcher => decide (0 < (matcher inputStr).length)
  | none => false

/-- The first matching rule in declared order (specification-side helper). -/
def firstMatchingRule (compile : RegexOracle) (inputStr : String)
    (rules : List PatternEntry) : Option PatternEntry :=
  rules.find? (matchesRule compile inputStr)

theorem tryPatterns_spec (compile : RegexOracle) (inputStr : String) :
    ∀ rules : List PatternEntry,
    (∀ p ∈ rules, (compile p.input).isSome) →
    tryPatterns compile inputStr rules =
      (firstMatchingRule compile inputStr rules).map
        (fun p => .ok (processGroupName p.output
          (((compile p.input).getD (fun _ => [])) inputStr))) := by
  intro rules
  induction rules with
  | nil => intro _; rfl
  | cons p rest ih =>
      intro hc
      rcases Option.isSome_iff_exists.mp (hc p (List.mem_cons_self _ _)) with
        ⟨matcher, hm⟩
      rw [tryPatterns, hm]
      dsimp only
      cases hlen : (matcher inputStr).length with
      | zero =>
          have hmr : matchesRule compile inputStr p = false := by
            rw [matchesRule, hm]
            simp [hlen]
          rw [firstMatchingRule, List.find?_cons, hmr]
          simp only [hlen]
          rw [ih (fun q hq => hc q (List.mem_cons_of_mem _ hq))]
          rfl
      | succ n =>
          have hmr : matchesRule compile inputStr p = true := by
            rw [matchesRule, hm]
            simp [hlen]
          rw [firstMatchingRule, List.find?_cons, hmr]
          simp [hm, hlen]

/- ### Claim theorems -/

/-- C3: on any finite closed group graph, including cyclic ones, membership
expansion from any existing node terminates with success (a node already on
the traversal path contributes the empty list), and the deduplicated result
lists exactly the users of the nodes reachable along simple paths from the
root, each exactly once, in first-seen depth-first order (equality with the
keepFirst specification). -/
theorem claim_C3_expansion (g : Graph) (root : String)
    (hc : closedB g = true) (hk : (keysOf g).contains root = true) :
    (∀ (name : String) (visited : List String), visited.contains name = true →
      fetchUniqueGroupMembers g name visited = .ok []) ∧
    ∃ l : List String, fetchUniqueGroupMembers g root [] = .ok l ∧
      deduplicateMembers l = keepFirst l ∧
      (deduplicateMembers l).Nodup ∧
      (∀ u : String, u ∈ deduplicateMembers l ↔
        ∃ t : String, ∃ spec : GSpec, PathReach g [] root t ∧
          lookupG g t = some spec ∧ u ∈ spec.users) := by
  have hroot : ∀ n ∈ [root], n ∈ keysOf g := by
    intro n hn
    rcases List.mem_cons.mp hn with rfl | hfalse
    · exact List.elem_iff.mp hk
    · cases hfalse
  rcases fetchMembersList_ok g hc [root] [] hroot with ⟨l, hl⟩
  refine ⟨?_, l, hl, deduplicateMembers_eq_keepFirst l, ?_, ?_⟩
  · intro name visited hv
    rw [fetchUniqueGroupMembers, fetchMembersList_cons_visited g name [] visited hv,
      fetchMembersList]
  · rw [deduplicateMembers_eq_keepFirst]
    exact nodup_keepFirst l
  · intro u
    rw [deduplicateMembers_eq_keepFirst, mem_keepFirst,
      mem_fetchMembersList g [root] [] l hl u]
    constructor
    · rintro ⟨n, hn, t, spec, hp, hlk, hus⟩
      rcases List.mem_cons.mp hn with rfl | hfalse
      · exact ⟨t, spec, hp, hlk, hus⟩
      · cases hfalse
    · rintro ⟨t, spec, hp, hlk, hus⟩
      exact ⟨root, List.mem_cons_self _ _, t, spec, hp, hlk, hus⟩

/-- C6: the offboarding sweep classifies a user as inactive, and therefore
enters the offboarding path, exactly when the directory lookup returns the
typed not-found error or an LDAP error with the no-such-object result code;
on any other lookup error the user is left untouched (no backend call, no
cache mutation) and the failure is merely reported. -/
theorem claim_C6_offboarding_classification (env : OffboardEnv)
    (cache : CacheStore) (u : String) :
    (isUserActiveInLDAP env u = .ok false ↔
      (env.ldap u = .error .noUserFound ∨
       env.ldap u = .error (.ldapCode ldapResultNoSuchObject))) ∧
    (∀ e, env.ldap u = .error e → e ≠ .noUserFound →
      e ≠ .ldapCode ldapResultNoSuchObject →
      processUserJob env cache u =
        (.error ("failed to check LDAP for user " ++ u), cache, [])) ∧
    (isUserActiveInLDAP env u = .ok false →
      processUserJob env cache u =
        (match offboardUser env cache u with
         | (.error e, cache2, tr) => (.error e, cache2, tr)
         | (.ok _, cache2, tr) => (.ok true, cache2, tr))) ∧
    (∀ d, env.ldap u = .ok d →
      processUserJob env cache u = (.ok false, cache, [])) := by
  refine ⟨?_, ?_, ?_, ?_⟩
  · rw [isUserActiveInLDAP]
    cases hl : env.ldap u with
    | ok d => simp
    | error e =>
        cases e with
        | noUserFound => simp
        | ldapCode c =>
            by_cases hc : c = ldapResultNoSuchObject
            · subst hc
              simp
            · have hb : (c == ldapResultNoSuchObject) = false := by
                simpa using hc
              simp [hb, hc]
        | transport msg => simp
  · intro e hl hne1 hne2
    have hact : isUserActiveInLDAP env u = .error e := by
      rw [isUserActiveInLDAP, hl]
      cases e with
      | noUserFound => exact absurd rfl hne1
      | ldapCode c =>
          have hb : (c == ldapResultNoSuchObject) = false := by
            simp only [beq_eq_false_iff_ne, ne_eq]
            intro hcc
            exact hne2 (by rw [hcc])
          simp [hb]
      | transport msg => rfl
    rw [processUserJob, hact]
  · intro hact
    rw [processUserJob, hact]
  · intro d hl
    have hact : isUserActiveInLDAP env u = .ok true := by
      rw [isUserActiveInLDAP, hl]
    rw [processUserJob, hact]

/-- C9: for both supported cache variants, Get of a missing key returns the
distinguished not-found error rather than a value, and the reconciler
callers treat the failing Get as a cache miss: fetch-or-create-team and
user onboarding proceed to issue the corresponding Create call. -/
theorem claim_C9_cache_miss (cache : CacheStore) (k : String)
    (env : ReconcilerEnv) (ops : ClientOps) (gname : String) (b : Backend)
    (tname : String) (u : String) (rest : List String) (ud : LDAPUser)
    (errT errU : String)
    (hmiss : cacheLookup cache k = none)
    (ht : env.transform b.btype gname = .ok tname)
    (hgetT : env.cacheGet cache tname = .error errT)
    (hld : env.ldapData u = some ud)
    (hgetU : env.cacheGet cache ud.email = .error errU) :
    (inmemoryGet cache k = .error "key not found" ∧
     redisGet cache k = .error "redis: nil") ∧
    (∃ tr, (fetchOrCreateTeam env ops cache gname b).2.2 =
      Call.createTeam b
        { id := "", name := tname, description := "team for " ++ gname,
          role := accountReviewerRole } :: tr) ∧
    (∃ tr, (createUsersInBackendAndCache env ops (u :: rest) b cache).2.2 =
      Call.createUser b
        { id := "", userName := u, email := ud.email,
          firstName := ud.displayName, lastName := ud.sn,
          role := accountReviewerRole } :: tr) := by
  refine ⟨⟨?_, ?_⟩, ?_, ?_⟩
  · rw [inmemoryGet, hmiss]
  · rw [redisGet, hmiss]
  · exact fetchOrCreateTeam_miss env ops cache gname b tname errT ht hgetT
  · exact createUsers_miss env ops b u rest cache ud errU hld hgetU

/-- C7: the name transformer consults the rules of the backend type in
declared order, falling back to the rules of the pseudo-type default; the
first rule whose regex submatch succeeds wins, its output template
substituted by processGroupName (capture substitution with the
dash-to-underscore token); when no rule matches, an error is returned
(assuming every consulted rule compiles). -/
theorem claim_C7_name_transformer (pattern : List (String × List PatternEntry))
    (compile : RegexOracle) (typeName inputStr : String)
    (hc : ∀ p ∈ effectiveRules pattern typeName, (compile p.input).isSome) :
    GetTransformedGroupName pattern compile typeName inputStr =
      (match firstMatchingRule compile inputStr
          (effectiveRules pattern typeName) with
      | some p => .ok (processGroupName p.output
          (((compile p.input).getD (fun _ => [])) inputStr))
      | none => .error ("no matching pattern found for backend type " ++
          typeName ++ " and input string is " ++ inputStr)) := by
  have hsel : GetTransformedGroupName pattern compile typeName inputStr =
      (match tryPatterns compile inputStr (effectiveRules pattern typeName) with
      | some r => r
      | none => .error ("no matching pattern found for backend type " ++
          typeName ++ " and input string is " ++ inputStr)) := by
    rw [GetTransformedGroupName, effectiveRules]
  rw [hsel, tryPatterns_spec compile inputStr (effectiveRules pattern typeName) hc]
  cases firstMatchingRule compile inputStr (effectiveRules pattern typeName) with
  | none => rfl
  | some p => rfl

theorem UpdateStatus_backendsStatus (g : GroupObj) (isErr : Bool) :
    (UpdateStatus g isErr).status.backendsStatus = g.status.backendsStatus := by
  cases isErr <;> simp [UpdateStatus]

theorem UpdateStatus_conditions (g : GroupObj) (isErr : Bool) :
    (UpdateStatus g isErr).status.conditions =
      upsertCondition g.status.conditions
        (if isErr then failedCondition else successCondition) := by
  cases isErr <;> simp [UpdateStatus]

theorem UpdateStatus_generation (g : GroupObj) (isErr : Bool) :
    (UpdateStatus g isErr).status.lastAppliedGeneration =
      if isErr then g.status.lastAppliedGeneration else g.generation := by
  cases isErr <;> simp [UpdateStatus]

/-- Shape of the finished synchronization phase after a completed loop. -/
theorem reconcileSyncPhase_eq (env : ReconcilerEnv) (g : GroupObj)
    (mem : List String) (cache : CacheStore) (berrs : List (String × String))
    (isErr : Bool) (cache2 : CacheStore) (tr : List Call)
    (h : reconcileBackends env g.groupName mem g.backends cache [] false [] =
      .completed berrs isErr cache2 tr) :
    ∃ g3 : GroupObj,
      reconcileSyncPhase env g mem cache = .finished g3 cache2 tr
        (if berrs.isEmpty then none
         else some "failed to reconcile all backends") ∧
      g3.status.backendsStatus = buildBackendStatus g.backends berrs ∧
      g3.status.conditions = upsertCondition g.status.conditions
        (if isErr then failedCondition else successCondition) ∧
      g3.status.lastAppliedGeneration =
        (if isErr then g.status.lastAppliedGeneration else g.generation) := by
  rw [reconcileSyncPhase, h]
  refine ⟨_, rfl, ?_, ?_, ?_⟩
  · rw [UpdateStatus_backendsStatus]
  · rw [UpdateStatus_conditions]
  · rw [UpdateStatus_generation]

theorem contains_filter_ne (k : String) :
    ∀ l : List String, (l.filter (fun f => f != k)).contains k = false := by
  intro l
  induction l with
  | nil => rfl
  | cons x xs ih =>
      by_cases h : x = k
      · subst h
        simp only [List.filter, bne_self_eq_false]
        exact ih
      · have hb : (x != k) = true := by simp [h]
        have hb2 : (k == x) = false := beq_eq_false_iff_ne.mpr (Ne.symm h)
        simp only [List.filter, hb]
        simp only [List.contains_cons, hb2, Bool.false_or]
        exact ih

/-- C5: after a completed reconcile pass, each declared backend substatus is
ok with message Successful exactly when its type is absent from the
backend-errors map, and carries the recorded message otherwise; the
GroupReady condition is True exactly when the map is empty; and
lastAppliedGeneration advances to the generation exactly in that case,
staying unchanged otherwise. -/
theorem claim_C5_status_finalization (env : ReconcilerEnv) (g : GroupObj)
    (mem : List String) (cache : CacheStore) (berrs : List (String × String))
    (isErr : Bool) (cache2 : CacheStore) (tr : List Call)
    (h : reconcileBackends env g.groupName mem g.backends cache [] false [] =
      .completed berrs isErr cache2 tr) :
    ∃ g3 : GroupObj,
      reconcileSyncPhase env g mem cache = .finished g3 cache2 tr
        (if berrs.isEmpty then none
         else some "failed to reconcile all backends") ∧
      (∀ b ∈ g.backends,
        (lookupStr berrs b.btype = none →
          ({ name := b.name, btype := b.btype, status := true,
             message := "Successful" } : BackendStatus) ∈
            g3.status.backendsStatus) ∧
        (∀ msg, lookupStr berrs b.btype = some msg →
          ({ name := b.name, btype := b.btype, status := false,
             message := msg } : BackendStatus) ∈ g3.status.backendsStatus)) ∧
      ((condLookup g3.status.conditions groupReadyCondition).map
          Condition.status =
        some (if berrs.isEmpty then CondStatus.ctrue else CondStatus.cfalse)) ∧
      (g3.status.lastAppliedGeneration =
        if berrs.isEmpty then g.generation
        else g.status.lastAppliedGeneration) := by
  have hinv := reconcileBackends_invariant env g.groupName mem g.backends cache
    [] false [] berrs isErr cache2 tr h (by simp)
  have hiff : isErr = !berrs.isEmpty := by
    cases hbe : berrs with
    | nil =>
        cases hie : isErr with
        | false => rfl
        | true =>
            rw [hbe] at hinv
            exact absurd rfl (hinv.mp hie)
    | cons p rest =>
        cases hie : isErr with
        | true => rfl
        | false =>
            rw [hbe] at hinv
            have : p :: rest ≠ [] := by simp
            have := hinv.mpr this
            rw [hie] at this
            cases this
  rcases reconcileSyncPhase_eq env g mem cache berrs isErr cache2 tr h with
    ⟨g3, hfin, hbs, hconds, hgen⟩
  refine ⟨g3, hfin, ?_, ?_, ?_⟩
  · intro b hb
    constructor
    · intro hlk
      rw [hbs, buildBackendStatus]
      refine List.mem_map.mpr ⟨b, hb, ?_⟩
      rw [hlk]
    · intro msg hlk
      rw [hbs, buildBackendStatus]
      refine List.mem_map.mpr ⟨b, hb, ?_⟩
      rw [hlk]
  · rw [hconds, hiff]
    cases hbe : berrs.isEmpty with
    | true =>
        simp only [Bool.not_true, Bool.false_eq_true, if_false, if_true]
        have h2 : condLookup (upsertCondition g.status.conditions
            successCondition) groupReadyCondition = some successCondition :=
          condLookup_upsert g.status.conditions successCondition
        rw [h2]
        rfl
    | false =>
        simp only [Bool.not_false, if_true, Bool.false_eq_true, if_false]
        have h2 : condLookup (upsertCondition g.status.conditions
            failedCondition) groupReadyCondition = some failedCondition :=
          condLookup_upsert g.status.conditions failedCondition
        rw [h2]
        rfl
  · rw [hgen, hiff]
    cases berrs.isEmpty <;> rfl

/-- C10: the backend-errors map is keyed by backend type alone, so for two
declared backends sharing a type, a recorded failure for that type makes
both substatus entries ok=false with the same message, even when one of the
two was processed successfully. -/
theorem claim_C10_type_keyed_status (env : ReconcilerEnv) (g : GroupObj)
    (mem : List String) (cache : CacheStore) (berrs : List (String × String))
    (isErr : Bool) (cache2 : CacheStore) (tr : List Call)
    (b1 b2 : Backend) (hb1 : b1 ∈ g.backends) (hb2 : b2 ∈ g.backends)
    (htype : b1.btype = b2.btype)
    (h : reconcileBackends env g.groupName mem g.backends cache [] false [] =
      .completed berrs isErr cache2 tr)
    (msg : String) (hmsg : lookupStr berrs b1.btype = some msg) :
    ∃ g3 : GroupObj,
      reconcileSyncPhase env g mem cache = .finished g3 cache2 tr
        (if berrs.isEmpty then none
         else some "failed to reconcile all backends") ∧
      ({ name := b1.name, btype := b1.btype, status := false,
         message := msg } : BackendStatus) ∈ g3.status.backendsStatus ∧
      ({ name := b2.name, btype := b2.btype, status := false,
         message := msg } : BackendStatus) ∈ g3.status.backendsStatus := by
  rcases reconcileSyncPhase_eq env g mem cache berrs isErr cache2 tr h with
    ⟨g3, hfin, hbs, hconds, hgen⟩
  refine ⟨g3, hfin, ?_, ?_⟩
  · rw [hbs, buildBackendStatus]
    refine List.mem_map.mpr ⟨b1, hb1, ?_⟩
    rw [hmsg]
  · rw [hbs, buildBackendStatus]
    refine List.mem_map.mpr ⟨b2, hb2, ?_⟩
    rw [← htype, hmsg]

/-- C1 as amended: a failure in client construction, team fetch-or-create,
user onboarding, membership fetch or diff computation is recorded in the
backend-errors map under the backend type and the loop continues with the
remaining backends (and the recorded key survives to the end of the loop);
whereas a failing AddUserToTeam or RemoveUserFromTeam call makes the
reconcile return immediately: nothing is recorded and the remaining
backends are not processed. -/
theorem claim_C1_backend_isolation (env : ReconcilerEnv) (gname : String)
    (mem : List String) (b : Backend) (rest : List Backend)
    (cache : CacheStore) (berrs : List (String × String)) (isErr : Bool)
    (tr : List Call) :
    (∀ e c2 tr2, processBackend env gname mem b cache = (.recorded e, c2, tr2) →
      reconcileBackends env gname mem (b :: rest) cache berrs isErr tr =
        reconcileBackends env gname mem rest c2 (setStr berrs b.btype e) true
          (tr ++ tr2) ∧
      (∀ berrs2 isErr2 c3 tr3,
        reconcileBackends env gname mem rest c2 (setStr berrs b.btype e) true
          (tr ++ tr2) = .completed berrs2 isErr2 c3 tr3 →
        lookupStr berrs2 b.btype ≠ none)) ∧
    (∀ e c2 tr2,
      processBackend env gname mem b cache = (.abortOnAddRemove e, c2, tr2) →
      reconcileBackends env gname mem (b :: rest) cache berrs isErr tr =
        .aborted e c2 (tr ++ tr2)) := by
  constructor
  · intro e c2 tr2 hp
    constructor
    · rw [reconcileBackends, hp]
    · intro berrs2 isErr2 c3 tr3 hcomp
      refine reconcileBackends_keys env gname mem rest c2
        (setStr berrs b.btype e) true (tr ++ tr2) berrs2 isErr2 c3 tr3 hcomp
        b.btype ?_
      rw [lookupStr_setStr]
      simp
  · intro e c2 tr2 hp
    rw [reconcileBackends, hp]

/-- C2: with deletion requested and the finalizer present, a cleanup
failure returns the error with the object (and its finalizer) untouched;
on success the finalizer is removed, and by then every declared backend has
had its recorded team id deleted from the backend (DeleteTeamByID traced
for every id recorded at the start, given pairwise distinct instance keys)
and the cache no longer records a team id for it. -/
theorem claim_C2_finalizer_safety (env : ReconcilerEnv) (g : GroupObj)
    (cache : CacheStore) (henv : env.cacheGet = inmemoryGet)
    (hfin : g.finalizers.contains groupFinalizer = true)
    (hkeys : (g.backends.map Backend.cacheKey).Nodup) :
    (∀ g2 c2 tr e, reconcileDeletion env g cache = (g2, c2, tr, .error e) →
      g2 = g ∧ g2.finalizers.contains groupFinalizer = true) ∧
    (∀ g2 c2 tr, reconcileDeletion env g cache = (g2, c2, tr, .ok ()) →
      g2.finalizers.contains groupFinalizer = false ∧
      deleteBackendsTeam env g.groupName g.backends cache = (c2, tr, .ok ()) ∧
      (∀ b ∈ g.backends, ∀ tname,
        env.transform b.btype g.groupName = .ok tname →
        NoRecordedId c2 tname b.cacheKey ∧
        (∀ m id, cacheLookup cache tname = some (.vmap m) →
          lookupStr m b.cacheKey = some id → id ≠ "" →
          Call.deleteTeam b id ∈ tr))) := by
  constructor
  · intro g2 c2 tr e h
    rw [reconcileDeletion] at h
    rw [if_pos hfin] at h
    cases hd : deleteBackendsTeam env g.groupName g.backends cache with
    | mk cc p =>
        rcases p with ⟨trr, res⟩
        rw [hd] at h
        cases res with
        | error e2 =>
            injection h with h1 h2
            injection h2 with h2 h3
            injection h3 with h3 h4
            subst h1
            exact ⟨rfl, hfin⟩
        | ok u2 =>
            injection h with h1 h2
            injection h2 with h2 h3
            injection h3 with h3 h4
            cases h4
  · intro g2 c2 tr h
    rw [reconcileDeletion] at h
    rw [if_pos hfin] at h
    cases hd : deleteBackendsTeam env g.groupName g.backends cache with
    | mk cc p =>
        rcases p with ⟨trr, res⟩
        rw [hd] at h
        cases res with
        | error e2 =>
            injection h with h1 h2
            injection h2 with h2 h3
            injection h3 with h3 h4
            cases h4
        | ok u2 =>
            cases u2
            injection h with h1 h2
            injection h2 with h2 h3
            injection h3 with h3 h4
            subst h1
            subst h2
            subst h3
            refine ⟨?_, rfl, ?_⟩
            · exact contains_filter_ne groupFinalizer g.finalizers
            · intro b hb tname ht
              exact deleteBackendsTeam_spec env g.groupName henv g.backends
                cache _ _ hd hkeys b hb tname ht

/-- C4 as amended: processUsers returns usersToAdd equal (as a set, with
backend ids as identity) to toSync minus currentMembers, and usersToRemove
equal to (currentMembers minus toSync) together with the raw directory ids
of non-enrichable users appearing among current members — the latter may
exceed currentMembers minus toSync when such a raw id coincides with a
synced backend id; a missing cached backend id for an enrichable user
aborts the backend with an error (so on success every enrichable user has
a cached id). -/
theorem claim_C4_diff_sets (env : ReconcilerEnv) (cache : CacheStore)
    (users : List String) (members : List (String × User)) (b : Backend)
    (toAdd toRemove : List String)
    (h : processUsers env cache users members b = .ok (toAdd, toRemove)) :
    (∀ x, x ∈ toAdd ↔ x ∈ users.filterMap (cachedId env cache b) ∧
      x ∉ members.map (fun p => p.1)) ∧
    (∀ x, x ∈ toRemove ↔
      (x ∈ users ∧ env.ldapData x = none ∧ x ∈ members.map (fun p => p.1)) ∨
      (x ∈ members.map (fun p => p.1) ∧
        x ∉ users.filterMap (cachedId env cache b))) ∧
    (∀ u ∈ users, (env.ldapData u).isSome → (cachedId env cache b u).isSome) := by
  rcases processUsers_ok env cache members b users toAdd toRemove h with
    ⟨ha, hr, hall⟩
  refine ⟨?_, ?_, hall⟩
  · intro x
    rw [ha]
    rw [List.mem_filter]
    constructor
    · rintro ⟨hx1, hx2⟩
      refine ⟨hx1, ?_⟩
      intro hmem
      have := (lookupUser_isSome_iff_mem_keys x members).mpr hmem
      simp [Option.isNone_iff_eq_none] at hx2
      rw [hx2] at this
      cases this
    · rintro ⟨hx1, hx2⟩
      refine ⟨hx1, ?_⟩
      cases hlu : lookupUser members x with
      | none => simp
      | some w =>
          exact absurd ((lookupUser_isSome_iff_mem_keys x members).mp
            (by rw [hlu]; rfl)) hx2
  · intro x
    rw [hr]
    rw [List.mem_append]
    constructor
    · rintro (hx | hx)
      · left
        rcases List.mem_filter.mp hx with ⟨hx1, hx2⟩
        simp only [Bool.and_eq_true] at hx2
        rcases hx2 with ⟨hnone, hsome⟩
        refine ⟨hx1, Option.isNone_iff_eq_none.mp hnone, ?_⟩
        exact (lookupUser_isSome_iff_mem_keys x members).mp hsome
      · right
        rcases List.mem_filter.mp hx with ⟨hx1, hx2⟩
        refine ⟨hx1, ?_⟩
        intro hmem
        have hcont : (users.filterMap (cachedId env cache b)).contains x = true :=
          List.elem_iff.mpr hmem
        rw [hcont] at hx2
        cases hx2
    · rintro (⟨hx1, hx2, hx3⟩ | ⟨hx1, hx2⟩)
      · left
        refine List.mem_filter.mpr ⟨hx1, ?_⟩
        simp only [Bool.and_eq_true]
        refine ⟨?_, ?_⟩
        · rw [hx2]; rfl
        · exact (lookupUser_isSome_iff_mem_keys x members).mpr hx3
      · right
        refine List.mem_filter.mpr ⟨hx1, ?_⟩
        cases hc : (users.filterMap (cachedId env cache b)).contains x with
        | false => rfl
        | true => exact absurd (List.elem_iff.mp hc) hx2

/- ### Concrete instances for witnesses and counterexamples -/

def bX1 : Backend := { name := "n1", btype := "t1" }

def bX2 : Backend := { name := "n2", btype := "t2" }

def udX1 : LDAPUser := { email := "u1@x", displayName := "U One", sn := "One" }

def udX2 : LDAPUser := { email := "u2@x", displayName := "U Two", sn := "Two" }

/-- A backend client whose operations all succeed. -/
def opsOk : ClientOps :=
  { createUser := fun u => .ok { u with id := "uid-" ++ u.userName },
    createTeam := fun t => .ok { t with id := "tid-" ++ t.name },
    deleteTeamByID := fun _ => .ok (),
    fetchTeamMembersByTeamID := fun _ => .ok [],
    addUserToTeam := fun _ _ => .ok (),
    removeUserFromTeam := fun _ _ => .ok (),
    deleteUser := fun _ => .ok () }

/-- A backend client whose AddUserToTeam call fails. -/
def opsAddFail : ClientOps :=
  { opsOk with addUserToTeam := fun _ _ => .error "add failed" }

def envC1 : ReconcilerEnv :=
  { transform := fun t _ => .ok ("T" ++ t),
    newClient := fun b => .ok (if b.name == "n1" then opsAddFail else opsOk),
    ldapData := fun u => if u == "u1" then some udX1 else none,
    cacheGet := inmemoryGet }

def cacheC1 : CacheStore :=
  [("Tt1", .vmap [("n1_t1", "tid1")]),
   ("Tt2", .vmap [("n2_t2", "tid2")]),
   ("u1@x", .vmap [("n1_t1", "uid1"), ("n2_t2", "uid2")])]

def envC4 : ReconcilerEnv :=
  { transform := fun _ _ => .error "unused",
    newClient := fun _ => .error "unused",
    ldapData := fun u => if u == "u2" then some udX2 else none,
    cacheGet := inmemoryGet }

def cacheC4 : CacheStore := [("u2@x", .vmap [("n1_t1", "u1")])]

def userStub : User :=
  { id := "u1", userName := "u1", email := "", firstName := "",
    lastName := "", role := "" }

def membersC4 : List (String × User) := [("u1", userStub)]

def envW1 : ReconcilerEnv :=
  { transform := fun t _ => .ok ("T" ++ t),
    newClient := fun b =>
      if b.name == "bad" then .error "no client" else .ok opsOk,
    ldapData := fun _ => none,
    cacheGet := inmemoryGet }

def bBad : Backend := { name := "bad", btype := "tbad" }

def envW2 : ReconcilerEnv :=
  { transform := fun t _ => .ok ("T" ++ t),
    newClient := fun _ => .ok opsOk,
    ldapData := fun _ => none,
    cacheGet := inmemoryGet }

def cacheW2 : CacheStore := [("Tt1", .vmap [("n1_t1", "tid1")])]

def emptyStatus : GroupStatus :=
  { conditions := [], lastAppliedGeneration := 0, backendsStatus := [] }

def gW2 : GroupObj :=
  { generation := 3, deletionTimestamp := true,
    finalizers := [groupFinalizer], groupName := "g", backends := [bX1],
    status := emptyStatus }

def gW2r : GroupObj := { gW2 with finalizers := [] }

def trW2 : List Call :=
  [Call.deleteTeam bX1 "tid1", Call.cacheDelete "Tt1"]

def gW3 : Graph :=
  [("a", { users := ["x"], groups := ["b"] }),
   ("b", { users := ["y"], groups := ["a"] })]

def envW5 : ReconcilerEnv :=
  { transform := fun t _ => .ok ("T" ++ t),
    newClient := fun _ => .error "no client",
    ldapData := fun _ => none,
    cacheGet := inmemoryGet }

def gW5 : GroupObj :=
  { generation := 7, deletionTimestamp := false, finalizers := [groupFinalizer],
    groupName := "g", backends := [bX1], status := emptyStatus }

def b10a : Backend := { name := "x", btype := "t" }

def b10b : Backend := { name := "y", btype := "t" }

def envW10 : ReconcilerEnv :=
  { transform := fun t _ => .ok ("T" ++ t),
    newClient := fun b =>
      if b.name == "x" then .error "no client" else .ok opsOk,
    ldapData := fun _ => none,
    cacheGet := inmemoryGet }

def cacheW10 : CacheStore := [("Tt", .vmap [("y_t", "tidY")])]

def gW10 : GroupObj :=
  { generation := 4, deletionTimestamp := false, finalizers := [groupFinalizer],
    groupName := "g", backends := [b10a, b10b], status := emptyStatus }

def envC6 : OffboardEnv :=
  { ldap := fun _ => .error (.transport "timeout"),
    backendClients := [("n1_t1", opsOk)] }

def peW7 : PatternEntry :=
  { input := "dataverse-(.*)", output := "dv_$1|replace(-,_)" }

def peW7d : PatternEntry := { input := ".*", output := "fallback" }

def patW7 : List (String × List PatternEntry) :=
  [("snowflake", [peW7]), ("default", [peW7d])]

def compileW7 : RegexOracle := fun pat =>
  if pat == "dataverse-(.*)" then
    some (fun s =>
      if s == "dataverse-foo-bar" then ["dataverse-foo-bar", "foo-bar"]
      else [])
  else if pat == ".*" then
    some (fun s => [s])
  else
    none

/-- A client whose membership fetch reports exactly the cached member. -/
def opsOk8 : ClientOps :=
  { opsOk with fetchTeamMembersByTeamID :=
      fun tid => if tid == "tid1" then .ok [("uid1", userStub)] else .ok [] }

def envW8 : ReconcilerEnv :=
  { transform := fun t _ => .ok ("T" ++ t),
    newClient := fun _ => .ok opsOk8,
    ldapData := fun u => if u == "u1" then some udX1 else none,
    cacheGet := inmemoryGet }

def cacheW8 : CacheStore :=
  [("Tt1", .vmap [("n1_t1", "tid1")]),
   ("u1@x", .vmap [("n1_t1", "uid1")])]

def envW9 : ReconcilerEnv :=
  { transform := fun t _ => .ok ("T" ++ t),
    newClient := fun _ => .ok opsOk,
    ldapData := fun u => if u == "u1" then some udX1 else none,
    cacheGet := inmemoryGet }

/- ### Counterexamples and witnesses -/

/-- C1 counterexample: with two declared backends, a failing AddUserToTeam
call on the first makes the reconcile loop return immediately (aborted, so
no backend-errors map and no status finalization exist), the trace shows no
call for the second backend, although processing the second backend from the
same state would have issued a call. -/
theorem claim_C1_counterexample :
    reconcileBackends envC1 "g" ["u1"] [bX1, bX2] cacheC1 [] false [] =
      .aborted "add failed" cacheC1
        [Call.addUsers bX1 "tid1" ["uid1"]] ∧
    (processBackend envC1 "g" ["u1"] bX2 cacheC1).2.2 =
      [Call.addUsers bX2 "tid2" ["uid2"]] := by
  decide

/-- C1 witness: a recorded-kind failure (client construction) lets the loop
continue with the remaining backends from the updated state. -/
theorem claim_C1_witness :
    reconcileBackends envW1 "g" [] [bBad, bX2] [] [] false [] =
      reconcileBackends envW1 "g" [] [bX2] []
        (setStr [] bBad.btype "no client") true ([] ++ []) :=
  ((claim_C1_backend_isolation envW1 "g" [] bBad [bX2] [] [] false []).1
    "no client" [] [] (by decide)).1

/-- C2 witness: deleting a group with one backend and a cached team id
removes the finalizer and traces the backing team deletion. -/
theorem claim_C2_witness :
    gW2r.finalizers.contains groupFinalizer = false ∧
    Call.deleteTeam bX1 "tid1" ∈ trW2 := by
  have h := (claim_C2_finalizer_safety envW2 gW2 cacheW2 rfl (by decide)
    (by decide)).2 gW2r [] trW2 (by decide)
  exact ⟨h.1, (h.2.2 bX1 (by decide) "Tt1" (by decide)).2
    [("n1_t1", "tid1")] "tid1" (by decide) (by decide) (by decide)⟩

/-- C3 witness: expansion of a two-node cyclic graph terminates and yields
each user once. -/
theorem claim_C3_witness :
    closedB gW3 = true ∧
    (∀ (name : String) (visited : List String), visited.contains name = true →
      fetchUniqueGroupMembers gW3 name visited = .ok []) ∧
    ∃ l : List String, fetchUniqueGroupMembers gW3 "a" [] = .ok l ∧
      deduplicateMembers l = keepFirst l ∧
      (deduplicateMembers l).Nodup ∧
      (∀ u : String, u ∈ deduplicateMembers l ↔
        ∃ t : String, ∃ spec : GSpec, PathReach gW3 [] "a" t ∧
          lookupG gW3 t = some spec ∧ u ∈ spec.users) :=
  ⟨by decide, claim_C3_expansion gW3 "a" (by decide) (by decide)⟩

/-- C4 counterexample: a non-enrichable user whose raw id is a current
member is scheduled for removal even though the set difference
currentMembers minus toSync is empty, refuting the claimed equality. -/
theorem claim_C4_counterexample :
    processUsers envC4 cacheC4 ["u1", "u2"] membersC4 bX1 =
      .ok ([], ["u1"]) ∧
    List.filterMap (cachedId envC4 cacheC4 bX1) ["u1", "u2"] = ["u1"] ∧
    (membersC4.map (fun p => p.1)).filter
      (fun x => !(["u1"] : List String).contains x) = [] := by
  decide

/-- C4 witness: the amended characterization at the concrete input. -/
theorem claim_C4_witness :
    (∀ x, x ∈ ([] : List String) ↔
      x ∈ List.filterMap (cachedId envC4 cacheC4 bX1) ["u1", "u2"] ∧
      x ∉ membersC4.map (fun p => p.1)) ∧
    (∀ x, x ∈ (["u1"] : List String) ↔
      (x ∈ (["u1", "u2"] : List String) ∧ envC4.ldapData x = none ∧
        x ∈ membersC4.map (fun p => p.1)) ∨
      (x ∈ membersC4.map (fun p => p.1) ∧
        x ∉ List.filterMap (cachedId envC4 cacheC4 bX1) ["u1", "u2"])) ∧
    (∀ u ∈ (["u1", "u2"] : List String), (envC4.ldapData u).isSome →
      (cachedId envC4 cacheC4 bX1 u).isSome) :=
  claim_C4_diff_sets envC4 cacheC4 ["u1", "u2"] membersC4 bX1 [] ["u1"]
    (by decide)

/-- C5 witness: a one-backend group whose client construction fails gets a
failed substatus, a False GroupReady condition, and an unchanged
lastAppliedGeneration. -/
theorem claim_C5_witness :
    ∃ g3 : GroupObj,
      reconcileSyncPhase envW5 gW5 [] [] = .finished g3 [] []
        (if ([("t1", "no client")] : List (String × String)).isEmpty then none
         else some "failed to reconcile all backends") ∧
      (∀ b ∈ gW5.backends,
        (lookupStr [("t1", "no client")] b.btype = none →
          ({ name := b.name, btype := b.btype, status := true,
             message := "Successful" } : BackendStatus) ∈
            g3.status.backendsStatus) ∧
        (∀ msg, lookupStr [("t1", "no client")] b.btype = some msg →
          ({ name := b.name, btype := b.btype, status := false,
             message := msg } : BackendStatus) ∈ g3.status.backendsStatus)) ∧
      ((condLookup g3.status.conditions groupReadyCondition).map
          Condition.status =
        some (if ([("t1", "no client")] : List (String × String)).isEmpty
          then CondStatus.ctrue else CondStatus.cfalse)) ∧
      (g3.status.lastAppliedGeneration =
        if ([("t1", "no client")] : List (String × String)).isEmpty
        then gW5.generation else gW5.status.lastAppliedGeneration) :=
  claim_C5_status_finalization envW5 gW5 [] [] [("t1", "no client")] true [] []
    (by decide)

/-- C6 witness: a transport error from the directory leaves the user
untouched and only reports the failure. -/
theorem claim_C6_witness :
    processUserJob envC6 [] "bob" =
      (.error ("failed to check LDAP for user " ++ "bob"), [], []) :=
  (claim_C6_offboarding_classification envC6 [] "bob").2.1
    (.transport "timeout") rfl (by decide) (by decide)

/-- C7 witness: the transformer applied to a concrete configuration,
with the dash-replacing token in the winning template. -/
theorem claim_C7_witness :
    GetTransformedGroupName patW7 compileW7 "snowflake" "dataverse-foo-bar" =
      (match firstMatchingRule compileW7 "dataverse-foo-bar"
          (effectiveRules patW7 "snowflake") with
      | some p => .ok (processGroupName p.output
          (((compileW7 p.input).getD (fun _ => [])) "dataverse-foo-bar"))
      | none => .error ("no matching pattern found for backend type " ++
          "snowflake" ++ " and input string is " ++ "dataverse-foo-bar")) :=
  claim_C7_name_transformer patW7 compileW7 "snowflake" "dataverse-foo-bar"
    (by decide)

/-- C8 witness: a backend whose team, user and membership state already
match the declared state is processed without any call or cache change. -/
theorem claim_C8_witness :
    processBackend envW8 "g" ["u1"] bX1 cacheW8 = (.success, cacheW8, []) := by
  refine claim_C8_idempotent envW8 opsOk8 cacheW8 "g" bX1 "Tt1"
    [("n1_t1", "tid1")] "tid1" ["u1"] [("uid1", userStub)]
    rfl rfl rfl rfl (by decide) (by decide) ?_ rfl ?_ ?_
  · intro u hu ud hld
    rcases List.mem_singleton.mp hu with rfl
    have : envW8.ldapData "u1" = some udX1 := rfl
    rw [this] at hld
    injection hld with hld
    subst hld
    exact ⟨[("n1_t1", "uid1")], "uid1", rfl, rfl, by decide⟩
  · intro p hp
    rcases List.mem_singleton.mp hp with rfl
    exact ⟨"u1", by decide, by decide⟩
  · intro u hu id hc
    rcases List.mem_singleton.mp hu with rfl
    have heval : cachedId envW8 cacheW8 bX1 "u1" = some "uid1" := by decide
    rw [heval] at hc
    injection hc with hc
    subst hc
    decide

/-- C9 witness: a missing team name and a missing user email produce the
distinguished not-found errors on both variants, and the callers proceed to
create. -/
theorem claim_C9_witness :
    (inmemoryGet [] "Tt1" = .error "key not found" ∧
     redisGet [] "Tt1" = .error "redis: nil") ∧
    (∃ tr, (fetchOrCreateTeam envW9 opsOk [] "g" bX1).2.2 =
      Call.createTeam bX1
        { id := "", name := "Tt1", description := "team for " ++ "g",
          role := accountReviewerRole } :: tr) ∧
    (∃ tr, (createUsersInBackendAndCache envW9 opsOk ["u1"] bX1 []).2.2 =
      Call.createUser bX1
        { id := "", userName := "u1", email := udX1.email,
          firstName := udX1.displayName, lastName := udX1.sn,
          role := accountReviewerRole } :: tr) :=
  claim_C9_cache_miss [] "Tt1" envW9 opsOk "g" bX1 "Tt1" "u1" [] udX1
    "key not found" "key not found" (by decide) rfl (by decide) rfl (by decide)

/-- C10 witness: two same-type backends, the first failing client
construction and the second converging, both reported failed with the same
message. -/
theorem claim_C10_witness :
    ∃ g3 : GroupObj,
      reconcileSyncPhase envW10 gW10 [] cacheW10 = .finished g3 cacheW10 []
        (if ([("t", "no client")] : List (String × String)).isEmpty then none
         else some "failed to reconcile all backends") ∧
      ({ name := b10a.name, btype := b10a.btype, status := false,
         message := "no client" } : BackendStatus) ∈
        g3.status.backendsStatus ∧
      ({ name := b10b.name, btype := b10b.btype, status := false,
         message := "no client" } : BackendStatus) ∈
        g3.status.backendsStatus :=
  claim_C10_type_keyed_status envW10 gW10 [] cacheW10 [("t", "no client")]
    true cacheW10 [] b10a b10b (by decide) (by decide) rfl (by decide)
    "no client" (by decide)

end Usernaut